import Mathlib

/-!
# mofka: scatter/gather buffer (`Data`) and slab pool (`SmallObjectPool`)

A shallow embedding of `src/Data.cpp` and `src/SmallObjectPool.hpp`.

## Memory model for `Data`

Raw memory is a flat byte-addressed store `Memory = Nat → Char`; a pointer is an
address (`Nat`, `nullptr = 0`).  A `Segment` is `(ptr, size)` and denotes the
addresses `ptr, ..., ptr + size - 1`.  `memcpy` stores bytes at consecutive
addresses; a copy that runs past the end of a segment therefore lands in
whatever lies behind the segment, which is how a buffer overrun shows up here.

All `size_t` arithmetic of `Data::write` is overflow-free on its own guards
(`offset -= seg.size` runs under `offset >= seg.size`, `size -= size_to_copy`
with `size_to_copy <= size`), so `Nat` is exact.
-/

namespace mofka

/-! ## Data.cpp -/

/-- Flat byte-addressed memory. -/
abbrev Memory := Nat → Char

/-- The null pointer. -/
def nullptr : Nat := 0

/-- The exception type thrown by `Data::write` (`mofka::Exception`, a
`std::exception` carrying a message). -/
structure Exception where
  what : String
  deriving DecidableEq, Repr

/-- The type `Data::Segment`: `{ void* ptr; size_t size; }`. -/
structure Segment where
  ptr  : Nat
  size : Nat
  deriving DecidableEq, Repr

/-- Modelled from the spec: the free callback type (`Data::FreeCallback`, a
closure taking the context) is declared outside `src/`; only its presence is
recorded, as an optional identifier. -/
abbrev FreeCallback := Option Nat

/-- Modelled from the spec: `DataImpl` (header `DataImpl.hpp`, not under
`src/`).  The spec gives the buffer as
`{ segments, total_size, context, free_callback }`; `Data.cpp` reads the fields
`m_segments`, `m_size` and `m_context`. -/
structure DataImpl where
  m_segments : List Segment
  m_size     : Nat
  m_context  : Nat
  m_free_cb  : FreeCallback
  deriving DecidableEq, Repr

/-- Modelled from the spec: the `DataImpl(ctx, free_cb)` constructor, an empty
buffer bound only to a context and free callback (no segments, size 0). -/
def DataImpl.mkEmpty (ctx : Nat) (free_cb : FreeCallback) : DataImpl :=
  { m_segments := [], m_size := 0, m_context := ctx, m_free_cb := free_cb }

/-- Modelled from the spec: the `DataImpl(ptr, size, ctx, free_cb)`
constructor, a single contiguous region. -/
def DataImpl.mkSingle (ptr size ctx : Nat) (free_cb : FreeCallback) : DataImpl :=
  { m_segments := [⟨ptr, size⟩], m_size := size, m_context := ctx, m_free_cb := free_cb }

/-- Modelled from the spec: the `DataImpl(segments, ctx, free_cb)` constructor;
`total_size` is the sum of the segment sizes. -/
def DataImpl.mkSegments (segments : List Segment) (ctx : Nat) (free_cb : FreeCallback) :
    DataImpl :=
  { m_segments := segments, m_size := (segments.map Segment.size).sum,
    m_context := ctx, m_free_cb := free_cb }

/-- The class `Data`: a pimpl handle, `self` is a possibly null
`std::shared_ptr<DataImpl>`. -/
structure Data where
  self : Option DataImpl
  deriving DecidableEq, Repr

/-- The null `Data` object (no implementation attached). -/
def Data.null : Data := ⟨none⟩

/-- Constructor `Data::Data(Context ctx, FreeCallback free_cb)`. -/
def Data.mk1 (ctx : Nat) (free_cb : FreeCallback) : Data :=
  ⟨some (DataImpl.mkEmpty ctx free_cb)⟩

/-- Constructor `Data::Data(void* ptr, size_t size, Context ctx, FreeCallback free_cb)`. -/
def Data.mk2 (ptr size ctx : Nat) (free_cb : FreeCallback) : Data :=
  ⟨some (DataImpl.mkSingle ptr size ctx free_cb)⟩

/-- Constructor `Data::Data(std::vector<Segment> segments, Context ctx, FreeCallback free_cb)`. -/
def Data.mk3 (segments : List Segment) (ctx : Nat) (free_cb : FreeCallback) : Data :=
  ⟨some (DataImpl.mkSegments segments ctx free_cb)⟩

/-- Accessor `Data::segments()`: the stored list, or the static empty vector when
`self` is null. -/
def Data.segments (d : Data) : List Segment :=
  match d.self with
  | some impl => impl.m_segments
  | none => []

/-- Accessor `Data::size()`. -/
def Data.size (d : Data) : Nat :=
  match d.self with
  | some impl => impl.m_size
  | none => 0

/-- Accessor `Data::context()`. -/
def Data.context (d : Data) : Nat :=
  match d.self with
  | some impl => impl.m_context
  | none => nullptr

/-- The call `std::memcpy(dst, src, n)`: the `n` bytes at the head of `src` are
stored at addresses `dst, ..., dst + n - 1`.  The source is a byte list (the
bytes readable from the source pointer on); reading past it yields the default
byte, which no caller with `n` readable bytes observes. -/
def memcpy (mem : Memory) (dst : Nat) (src : List Char) (n : Nat) : Memory :=
  fun a => if dst ≤ a ∧ a < dst + n then src.getD (a - dst) default else mem a

/-- One `memcpy` call issued by `Data::write`: `n` bytes from `data + off` to
`(char*)seg.ptr + offset`. -/
structure Copy where
  seg    : Segment
  offset : Nat
  off    : Nat
  n      : Nat
  deriving DecidableEq, Repr

/-- The `for(auto& seg : segments())` loop of `Data::write` (lines 48-60), as the
sequence of `memcpy` calls it issues.  The arguments are the loop variables
`offset`, `off` and `size` on entry to the iteration. -/
def Data.write.loop : List Segment → Nat → Nat → Nat → List Copy
  | [], _, _, _ => []
  | seg :: rest, offset, off, size =>
    if offset ≥ seg.size then
      -- offset -= seg.size; continue;
      Data.write.loop rest (offset - seg.size) off size
    else
      -- current segment needs to be copied
      let size_to_copy := min size seg.size
      let c : Copy := ⟨seg, offset, off, size_to_copy⟩
      -- offset = 0; off += size_to_copy; size -= size_to_copy; if(size == 0) break;
      if size - size_to_copy = 0 then [c]
      else c :: Data.write.loop rest 0 (off + size_to_copy) (size - size_to_copy)

/-- Running one recorded `memcpy` call against memory. -/
def Copy.run (data : List Char) (mem : Memory) (c : Copy) : Memory :=
  memcpy mem (c.seg.ptr + c.offset) (data.drop c.off) c.n

/-- The method `Data::write(const char* data, size_t size, size_t offset)`.
`data` is the list of bytes readable from the source pointer.  Either the
exception is thrown (memory untouched) or the resulting memory is returned. -/
def Data.write (d : Data) (mem : Memory) (data : List Char) (size offset : Nat) :
    Except Exception Memory :=
  if d.self.isNone ∧ size ≠ 0 then
    .error ⟨"Trying to call Data::write on a null Data object"⟩
  else
    .ok ((Data.write.loop d.segments offset 0 size).foldl (Copy.run data) mem)

/-- The bytes of one segment, read back from memory. -/
def Segment.read (mem : Memory) (seg : Segment) : List Char :=
  (List.range seg.size).map (fun k => mem (seg.ptr + k))

/-- The logical contents of a buffer: the concatenation of its segments. -/
def Data.contents (d : Data) (mem : Memory) : List Char :=
  d.segments.flatMap (Segment.read mem)

/-- The contents the write contract asks for: the old logical contents with the
bytes at `[offset, offset + min length (total - offset))` replaced by the head
of `data`. -/
def spliced (old data : List Char) (length offset : Nat) : List Char :=
  old.take offset ++ data.take (min length (old.length - offset))
    ++ old.drop (offset + min length (old.length - offset))

/-- Segments occupy pairwise disjoint address ranges. -/
def DisjointSegments (segs : List Segment) : Prop :=
  segs.Pairwise (fun s t => s.ptr + s.size ≤ t.ptr ∨ t.ptr + t.size ≤ s.ptr)

instance (segs : List Segment) : Decidable (DisjointSegments segs) := by
  unfold DisjointSegments; infer_instance

/-- A sample memory: every byte is `x`. -/
def memX : Memory := fun _ => 'x'

/-- The buffer of the spec scenario: two segments of four bytes each, at
addresses 100 and 200. -/
def scenarioData : Data := Data.mk3 [⟨100, 4⟩, ⟨200, 4⟩] nullptr none

/-- The source bytes of the spec scenario. -/
def scenarioSource : List Char := ['A', 'B', 'C', 'D', 'E', 'F', 'G', 'H']

/-! ## SmallObjectPool.hpp

The pool is the static vector `s_chunks`.  A chunk is identified by its position
in `s_chunks` (chunks are only ever appended, so the position of a chunk never
changes); a `Chunk*` is that position, `nullptr` is `none`.  A handle is the
address of an `Entry`, that is a chunk position and a slot of that chunk.

The spin lock makes the bookkeeping of `Allocate` and of the deleter atomic; the
sequential embedding runs each of them as one step.  The constructor and the
destructor of `T` are taken to return normally, and `std::make_shared<Chunk>()`
to succeed (memory exhaustion is not part of the state).
-/

/-- The type `std::bitset<64>`: 64 bits indexed `0..63`. -/
abbrev Bitset64 := Fin 64 → Bool

/-- The value-initialised bitset: every bit unset. -/
def Bitset64.zero : Bitset64 := fun _ => false

/-- The call `bitset::all()`: every bit is set. -/
def Bitset64.all (b : Bitset64) : Bool := decide (∀ i : Fin 64, b i = true)

/-- The call `bitset::count()`: the number of set bits. -/
def Bitset64.count (b : Bitset64) : Nat := (Finset.univ.filter (fun i => b i = true)).card

/-- What can go wrong inside the pool. -/
inductive PoolError where
  /-- Error `std::out_of_range`, thrown by `bitset::set` and `bitset::reset`
  for a position `>= 64`. -/
  | out_of_range
  /-- Undefined behaviour: a null or dangling pointer is dereferenced. -/
  | undefined
  deriving DecidableEq, Repr

/-- The conversion of an `int` index to the `size_t` position of
`bitset::set(pos)` / `bitset::reset(pos)` and of `m_content[pos]`: a position
below 64, or nothing (the bitset call throws `std::out_of_range`; `-1` converts
to `2^64 - 1`). -/
def slotOf (index : Int) : Option (Fin 64) :=
  if h : 0 ≤ index ∧ index < 64 then some ⟨index.toNat, by omega⟩ else none

/-- The struct `Entry : public T` with its bookkeeping `m_owner`, `m_index`.  The
`T` base subobject is abstracted to the flag `constructed`: an object of type `T`
has been constructed in the slot and not destructed since. -/
structure Entry where
  constructed : Bool
  m_owner     : Option Nat
  m_index     : Int
  deriving DecidableEq, Repr

/-- The constructor `Entry() = default`: the `T` base is default-constructed,
`m_owner = nullptr`, `m_index = -1`. -/
def Entry.dflt : Entry := ⟨true, none, -1⟩

/-- The struct `Chunk`: 64 entries and the occupancy bitset. -/
structure Chunk where
  m_content : Fin 64 → Entry
  m_is_used : Bitset64

/-- The expression `std::make_shared<Chunk>()`: every entry default-constructed,
every occupancy bit unset. -/
def Chunk.fresh : Chunk := ⟨fun _ => Entry.dflt, Bitset64.zero⟩

/-- The static state of `SmallObjectPool<T>`: the vector `s_chunks`. -/
structure SmallObjectPool where
  s_chunks : List Chunk

/-- The pool before its first use. -/
def SmallObjectPool.empty : SmallObjectPool := ⟨[]⟩

/-- A handle: the address of an entry, as chunk position and slot. -/
structure Handle where
  chunk : Nat
  slot  : Fin 64
  deriving DecidableEq, Repr

/-- The `for` loop of `GetChunkWithFreeSpace` (lines 50-55) over the chunks from
position `i` on: the first position whose bitset is not `all()`, or nothing
(`chunk` stays null). -/
def GetChunkWithFreeSpace.scan : List Chunk → Nat → Option Nat
  | [], _ => none
  | ch :: rest, i => if !ch.m_is_used.all then some i else GetChunkWithFreeSpace.scan rest (i + 1)

/-- The function `GetChunkWithFreeSpace`: the chosen chunk (its position) and the
pool, to which a fresh chunk has been appended when the scan found none. -/
def GetChunkWithFreeSpace (p : SmallObjectPool) : Nat × SmallObjectPool :=
  match GetChunkWithFreeSpace.scan p.s_chunks 0 with
  | some c => (c, p)
  | none => (p.s_chunks.length, ⟨p.s_chunks ++ [Chunk.fresh]⟩)

/-- The `for(int i=0; i < 64; ++i)` loop of `GetFreeSpaceInChunk` from `i` on;
`fuel` bounds the remaining iterations (64 at the start). -/
def GetFreeSpaceInChunk.loop (used : Bitset64) : Nat → Nat → Int
  | 0, _ => -1
  | fuel + 1, i =>
    if h : i < 64 then
      if !used ⟨i, h⟩ then (i : Int) else GetFreeSpaceInChunk.loop used fuel (i + 1)
    else -1

/-- The function `GetFreeSpaceInChunk`: the first unset index, or `-1`. -/
def GetFreeSpaceInChunk (chunk : Chunk) : Int :=
  GetFreeSpaceInChunk.loop chunk.m_is_used 64 0

/-- The function `Allocate`: claims a slot under the lock (lines 75-79), then
constructs the entry in it (lines 92-93) and returns the handle with the new
pool state. -/
def Allocate (p : SmallObjectPool) : Except PoolError (Handle × SmallObjectPool) :=
  let (c, p1) := GetChunkWithFreeSpace p
  match p1.s_chunks[c]? with
  | none => .error .undefined
  | some chunk =>
    let index := GetFreeSpaceInChunk chunk
    -- chunk->m_is_used.set(index);
    match slotOf index with
    | none => .error .out_of_range
    | some i =>
      -- new (location) Entry(chunk.get(), index, args...)
      let chunk1 : Chunk :=
        { m_content := Function.update chunk.m_content i ⟨true, some c, index⟩
          m_is_used := Function.update chunk.m_is_used i true }
      .ok (⟨c, i⟩, ⟨p1.s_chunks.set c chunk1⟩)

/-- The `deleter` lambda of `Allocate` (lines 80-91), the release action of a
handle, applied to the pointer `obj` (`none` is the null pointer). -/
def deleter (p : SmallObjectPool) (obj : Option Handle) : Except PoolError SmallObjectPool :=
  match obj with
  | none => .ok p -- if(!obj) return;
  | some h =>
    match p.s_chunks[h.chunk]? with
    | none => .error .undefined
    | some ch0 =>
      let entry := ch0.m_content h.slot
      -- obj->~T();
      let index := entry.m_index
      let chunk := entry.m_owner
      -- entry->m_index = -1; entry->m_owner = nullptr;
      let ch1 : Chunk := { ch0 with m_content := Function.update ch0.m_content h.slot ⟨false, none, -1⟩ }
      let chunks1 := p.s_chunks.set h.chunk ch1
      -- chunk->m_is_used.reset(index);
      match chunk with
      | none => .error .undefined
      | some c =>
        match chunks1[c]? with
        | none => .error .undefined
        | some ch2 =>
          match slotOf index with
          | none => .error .out_of_range
          | some i =>
            .ok ⟨chunks1.set c { ch2 with m_is_used := Function.update ch2.m_is_used i false }⟩

/-- The chunk after `Allocate` has claimed its slot `i`, the chunk being at
position `c`: the bit is set and the entry constructed with its bookkeeping. -/
def Chunk.claim (ch : Chunk) (c : Nat) (i : Fin 64) : Chunk :=
  { m_content := Function.update ch.m_content i ⟨true, some c, (i.val : Int)⟩
    m_is_used := Function.update ch.m_is_used i true }

/-- The chunk after the deleter has released its slot `i`: the object is
destructed, the bookkeeping cleared and the bit unset. -/
def Chunk.release (ch : Chunk) (i : Fin 64) : Chunk :=
  { m_content := Function.update ch.m_content i ⟨false, none, -1⟩
    m_is_used := Function.update ch.m_is_used i false }

/-- The entry behind handle `h` carries the bookkeeping written by `Allocate`:
its chunk exists, `m_owner` is that chunk and `m_index` is the slot. -/
def SmallObjectPool.Owns (p : SmallObjectPool) (h : Handle) : Prop :=
  ∃ ch, p.s_chunks[h.chunk]? = some ch ∧
    (ch.m_content h.slot).m_owner = some h.chunk ∧
    (ch.m_content h.slot).m_index = (h.slot.val : Int)

/-- The occupancy bit of slot `i` of the chunk at position `c` (unset when there
is no such chunk). -/
def SmallObjectPool.used (p : SmallObjectPool) (c : Nat) (i : Fin 64) : Bool :=
  match p.s_chunks[c]? with
  | some ch => ch.m_is_used i
  | none => false

/-- The number of set occupancy bits over all chunks. -/
def SmallObjectPool.occupied (p : SmallObjectPool) : Nat :=
  (p.s_chunks.map (fun ch => ch.m_is_used.count)).sum

/-- The pool together with the set of live handles. -/
structure PoolSys where
  pool : SmallObjectPool
  live : List Handle

/-- The empty pool, no handle live. -/
def PoolSys.init : PoolSys := ⟨SmallObjectPool.empty, []⟩

/-- A step of a client of the pool. -/
inductive PoolOp where
  /-- A call of `Allocate`; the returned handle becomes live. -/
  | allocate
  /-- The last owner of the live handle `h` drops it: the deleter runs. -/
  | release (h : Handle)
  deriving DecidableEq, Repr

/-- One step.  Releasing a handle that is not live is not a step (a handle is
released at most once); an error of `Allocate` or of the deleter ends the run. -/
def PoolSys.step (s : PoolSys) : PoolOp → Option PoolSys
  | .allocate =>
    match Allocate s.pool with
    | .ok (h, p) => some ⟨p, h :: s.live⟩
    | .error _ => none
  | .release h =>
    if h ∈ s.live then
      match deleter s.pool (some h) with
      | .ok p => some ⟨p, s.live.erase h⟩
      | .error _ => none
    else none

/-- A finite sequence of steps. -/
def PoolSys.run : PoolSys → List PoolOp → Option PoolSys
  | s, [] => some s
  | s, op :: ops =>
    match s.step op with
    | some s1 => PoolSys.run s1 ops
    | none => none

/-- Slot `j` is the first unset bit of `b`. -/
def IsFirstFree (b : Bitset64) (j : Fin 64) : Prop :=
  b j = false ∧ ∀ k : Fin 64, k < j → b k = true

/-- Position `c` is the first chunk of `l` whose bitset is not all-set. -/
def IsFirstOpen (l : List Chunk) (c : Nat) : Prop :=
  (∃ ch, l[c]? = some ch ∧ ch.m_is_used.all = false) ∧
  ∀ k, k < c → ∀ ch, l[k]? = some ch → ch.m_is_used.all = true

/-- Every chunk of `l` has all 64 bits set (in particular when `l` is empty). -/
def AllFull (l : List Chunk) : Prop :=
  ∀ ch ∈ l, ch.m_is_used.all = true

/-- Lexicographic order on handles: `h` is at or before `g`. -/
def Handle.le (h g : Handle) : Prop :=
  h.chunk < g.chunk ∨ (h.chunk = g.chunk ∧ h.slot ≤ g.slot)

instance (h g : Handle) : Decidable (Handle.le h g) := by
  unfold Handle.le; infer_instance

/-- A sample pool: one chunk whose slot 0 has been claimed by `Allocate`. -/
def samplePool : SmallObjectPool := ⟨[Chunk.fresh.claim 0 0]⟩

/-- The invariant of the pool with its live handles: a bit is set exactly when
a live handle refers to its slot, every live handle's entry carries the
bookkeeping written by `Allocate`, no handle is listed twice, and the number of
set bits is the number of live handles. -/
structure PoolSys.Inv (s : PoolSys) : Prop where
  bits  : ∀ c i, s.pool.used c i = true ↔ (⟨c, i⟩ : Handle) ∈ s.live
  owns  : ∀ h ∈ s.live, s.pool.Owns h
  nodup : s.live.Nodup
  count : s.pool.occupied = s.live.length

/-! ## Further definitions: `Data::write` contracts -/

/-- Modelled from the spec: the data-model invariant of a buffer,
`total_size == sum(segments[i].size)`; every `DataImpl` constructor establishes
it. -/
def DataImpl.WellFormed (impl : DataImpl) : Prop :=
  impl.m_size = (impl.m_segments.map Segment.size).sum

instance (impl : DataImpl) : Decidable impl.WellFormed := by
  unfold DataImpl.WellFormed; infer_instance

/-- The copied range `[offset, offset + n)` of a `memcpy` call lies inside its
segment. -/
def Copy.InBounds (c : Copy) : Prop := c.offset + c.n ≤ c.seg.size

instance (c : Copy) : Decidable c.InBounds := by
  unfold Copy.InBounds; infer_instance

/-- Where a logical offset falls: the size `s` of the segment it lands in and
the in-segment position `o`, skipping the segments wholly before it (zero-size
segments included); nothing when the offset is at or past the end. -/
def locate : List Segment → Nat → Option (Nat × Nat)
  | [], _ => none
  | seg :: rest, offset =>
    if offset ≥ seg.size then locate rest (offset - seg.size) else some (seg.size, offset)

/-- Address `a` belongs to one of the segments. -/
def InSegments (segs : List Segment) (a : Nat) : Prop :=
  ∃ seg ∈ segs, seg.ptr ≤ a ∧ a < seg.ptr + seg.size

/-! ## Further definitions: the pool code step by step

`Allocate` and the deleter once more, statement by statement: each effect on the
pool is recorded as an event together with the pool state right after it, in
program order. -/

/-- An effect of the pool code on the pool. -/
inductive PoolEvent where
  /-- Line 57-58: a chunk is created and appended at position `c`. -/
  | create (c : Nat)
  /-- Line 78: `chunk->m_is_used.set(index)`. -/
  | setBit (c : Nat) (i : Fin 64)
  /-- Line 93: the placement `new` of an `Entry` (and its `T`) at handle `h`. -/
  | construct (h : Handle)
  /-- Line 82: `obj->~T()`. -/
  | destruct (h : Handle)
  /-- Line 86-87: `entry->m_index = -1; entry->m_owner = nullptr;`. -/
  | unlink (h : Handle)
  /-- Line 89: `chunk->m_is_used.reset(index)`. -/
  | resetBit (c : Nat) (i : Fin 64)
  deriving DecidableEq, Repr

/-- The state after the last recorded event, or `p` when nothing happened. -/
def lastState (tr : List (PoolEvent × SmallObjectPool)) (p : SmallObjectPool) :
    SmallObjectPool :=
  match tr.getLast? with
  | some eq => eq.2
  | none => p

/-- The function `Allocate`, statement by statement: the handle and the events
with the states they lead to. -/
def Allocate.steps (p : SmallObjectPool) :
    Except PoolError (Handle × List (PoolEvent × SmallObjectPool)) :=
  -- auto chunk = GetChunkWithFreeSpace();
  let created : List (PoolEvent × SmallObjectPool) :=
    match GetChunkWithFreeSpace.scan p.s_chunks 0 with
    | some _ => []
    | none => [(.create p.s_chunks.length, (GetChunkWithFreeSpace p).2)]
  let (c, p1) := GetChunkWithFreeSpace p
  match p1.s_chunks[c]? with
  | none => .error .undefined
  | some chunk =>
    -- auto index = GetFreeSpaceInChunk(chunk.get());
    let index := GetFreeSpaceInChunk chunk
    match slotOf index with
    | none => .error .out_of_range
    | some i =>
      -- chunk->m_is_used.set(index);
      let chunk1 : Chunk := { chunk with m_is_used := Function.update chunk.m_is_used i true }
      let p2 : SmallObjectPool := ⟨p1.s_chunks.set c chunk1⟩
      -- new (location) Entry(chunk.get(), index, args...)
      let chunk2 : Chunk :=
        { chunk1 with m_content := Function.update chunk1.m_content i ⟨true, some c, index⟩ }
      let p3 : SmallObjectPool := ⟨p2.s_chunks.set c chunk2⟩
      .ok (⟨c, i⟩, created ++ [(.setBit c i, p2), (.construct ⟨c, i⟩, p3)])

/-- The `deleter` lambda, statement by statement. -/
def deleter.steps (p : SmallObjectPool) (obj : Option Handle) :
    Except PoolError (List (PoolEvent × SmallObjectPool)) :=
  match obj with
  | none => .ok [] -- if(!obj) return;
  | some h =>
    match p.s_chunks[h.chunk]? with
    | none => .error .undefined
    | some ch0 =>
      let entry := ch0.m_content h.slot
      -- obj->~T();
      let cha : Chunk :=
        { ch0 with m_content :=
            Function.update ch0.m_content h.slot ⟨false, entry.m_owner, entry.m_index⟩ }
      let pa : SmallObjectPool := ⟨p.s_chunks.set h.chunk cha⟩
      -- auto index = entry->m_index; auto chunk = entry->m_owner;
      let index := entry.m_index
      let chunk := entry.m_owner
      -- entry->m_index = -1; entry->m_owner = nullptr;
      let chb : Chunk :=
        { cha with m_content := Function.update cha.m_content h.slot ⟨false, none, -1⟩ }
      let pb : SmallObjectPool := ⟨pa.s_chunks.set h.chunk chb⟩
      -- chunk->m_is_used.reset(index);
      match chunk with
      | none => .error .undefined
      | some c =>
        match pb.s_chunks[c]? with
        | none => .error .undefined
        | some ch2 =>
          match slotOf index with
          | none => .error .out_of_range
          | some i =>
            let pc : SmallObjectPool :=
              ⟨pb.s_chunks.set c { ch2 with m_is_used := Function.update ch2.m_is_used i false }⟩
            .ok [(.destruct h, pa), (.unlink h, pb), (.resetBit c i, pc)]

/-- The events of one client step (see `PoolSys.step`). -/
def PoolSys.stepEvents (s : PoolSys) : PoolOp → Option (List (PoolEvent × SmallObjectPool))
  | .allocate =>
    match Allocate.steps s.pool with
    | .ok (_, tr) => some tr
    | .error _ => none
  | .release h =>
    if h ∈ s.live then
      match deleter.steps s.pool (some h) with
      | .ok tr => some tr
      | .error _ => none
    else none

/-- The events of a finite sequence of client steps, with every pool state
passed through. -/
def PoolSys.trace : PoolSys → List PoolOp → Option (List (PoolEvent × SmallObjectPool))
  | _, [] => some []
  | s, op :: ops =>
    match s.stepEvents op, s.step op with
    | some tr, some s1 =>
      match PoolSys.trace s1 ops with
      | some rest => some (tr ++ rest)
      | none => none
    | _, _ => none

/-- The entry at handle `h`, when its chunk exists. -/
def SmallObjectPool.entryAt (p : SmallObjectPool) (h : Handle) : Option Entry :=
  match p.s_chunks[h.chunk]? with
  | some ch => some (ch.m_content h.slot)
  | none => none

/-- The entry holds an object that `Allocate` constructed (its `m_owner` is set,
which only the `Entry(owner, index, args...)` constructor does) and that has not
been destructed. -/
def Entry.holdsAllocated (e : Entry) : Bool := e.constructed && e.m_owner.isSome

/-- No slot whose occupancy bit is unset holds an object allocated through a
handle and not yet destructed. -/
def SmallObjectPool.FreeSlotsReleased (p : SmallObjectPool) : Prop :=
  ∀ ch ∈ p.s_chunks, ∀ i, ch.m_is_used i = false → (ch.m_content i).holdsAllocated = false

/-- The entry behind handle `h` is exactly what `Allocate` constructed there: a
live object with owner `h.chunk` and index `h.slot`. -/
def SmallObjectPool.Holds (p : SmallObjectPool) (h : Handle) : Prop :=
  p.entryAt h = some ⟨true, some h.chunk, (h.slot.val : Int)⟩

/-- Every slot of the chunk whose bit is unset holds either the entry the chunk
was created with or an entry whose object has been destructed and unlinked. -/
def Chunk.Clean (ch : Chunk) : Prop :=
  ∀ i, ch.m_is_used i = false →
    ch.m_content i = Entry.dflt ∨ ch.m_content i = ⟨false, none, -1⟩

/-- The chunk with bit `i` set and the entries untouched (`Allocate` between
line 78 and line 93). -/
def Chunk.mark (ch : Chunk) (i : Fin 64) : Chunk :=
  { ch with m_is_used := Function.update ch.m_is_used i true }

/-- The chunk after `obj->~T()` on slot `i`. -/
def Chunk.destroyed (ch : Chunk) (i : Fin 64) : Chunk :=
  { ch with m_content :=
      Function.update ch.m_content i ⟨false, (ch.m_content i).m_owner, (ch.m_content i).m_index⟩ }

/-- The chunk after the destructor and the clearing of the bookkeeping of slot
`i`, the bit still set. -/
def Chunk.unlinked (ch : Chunk) (i : Fin 64) : Chunk :=
  { ch with m_content := Function.update ch.m_content i ⟨false, none, -1⟩ }

/-- The lifetime invariant of the pool with its live handles: the occupancy
invariant, every live handle's entry is the live object `Allocate` constructed
there, and every slot whose bit is unset holds a never-allocated or a destructed
entry. -/
structure PoolSys.LifeInv (s : PoolSys) : Prop where
  inv   : s.Inv
  holds : ∀ h ∈ s.live, s.pool.Holds h
  clean : ∀ ch ∈ s.pool.s_chunks, ch.Clean

/-- No copy of a write of `size` bytes at logical `offset` starts mid-segment
with more data than fits: the offset falls at position `o` of a segment of size
`s` with `o = 0` or `size <= s - o` (or it falls past the end). -/
def Fits (segs : List Segment) (offset size : Nat) : Prop :=
  match locate segs offset with
  | none => True
  | some (s, o) => o = 0 ∨ size ≤ s - o

end mofka

namespace mofka

/-! ## Lemmas: slot and chunk scans -/

theorem Bitset64.all_iff (b : Bitset64) : b.all = true ↔ ∀ i, b i = true := by
  simp [Bitset64.all]

theorem Bitset64.all_false_iff (b : Bitset64) : b.all = false ↔ ∃ i, b i = false := by
  simp [Bitset64.all]

theorem IsFirstFree.unique_slot {b : Bitset64} {i j : Fin 64} (hi : IsFirstFree b i)
    (hj : IsFirstFree b j) : i = j := by
  rcases lt_trichotomy i j with h | h | h
  · have := hj.2 i h; rw [hi.1] at this; cases this
  · exact h
  · have := hi.2 j h; rw [hj.1] at this; cases this

theorem IsFirstFree.exists_of_not_all {b : Bitset64} (h : b.all = false) :
    ∃ j, IsFirstFree b j := by
  classical
  obtain ⟨i, hi⟩ := (Bitset64.all_false_iff b).1 h
  have hex : ∃ n, ∃ hn : n < 64, b ⟨n, hn⟩ = false := ⟨i.val, i.isLt, hi⟩
  obtain ⟨hn, hb⟩ := Nat.find_spec hex
  refine ⟨⟨Nat.find hex, hn⟩, hb, ?_⟩
  intro k hk
  have hmin := Nat.find_min hex (m := k.val) hk
  cases hbk : b k with
  | true => rfl
  | false => exact absurd ⟨k.isLt, hbk⟩ hmin

theorem IsFirstOpen.unique_chunk {l : List Chunk} {c d : Nat} (hc : IsFirstOpen l c)
    (hd : IsFirstOpen l d) : c = d := by
  rcases lt_trichotomy c d with h | h | h
  · obtain ⟨ch, h1, h2⟩ := hc.1
    have := hd.2 c h ch h1; rw [h2] at this; cases this
  · exact h
  · obtain ⟨ch, h1, h2⟩ := hd.1
    have := hc.2 d h ch h1; rw [h2] at this; cases this

theorem GetFreeSpaceInChunk.loop_found (used : Bitset64) (j : Fin 64) (hj : used j = false) :
    ∀ (fuel i : Nat), i + fuel = 64 → i ≤ j.val →
      (∀ k : Fin 64, i ≤ k.val → k < j → used k = true) →
      GetFreeSpaceInChunk.loop used fuel i = (j.val : Int) := by
  intro fuel
  induction fuel with
  | zero => intro i h1 h2 _; have := j.isLt; omega
  | succ fuel ih =>
    intro i h1 h2 hmin
    have hi : i < 64 := lt_of_le_of_lt h2 j.isLt
    unfold GetFreeSpaceInChunk.loop
    rw [dif_pos hi]
    by_cases hij : i = j.val
    · have : (⟨i, hi⟩ : Fin 64) = j := Fin.ext hij
      rw [this, hj]; simp [hij]
    · have hlt : i < j.val := lt_of_le_of_ne h2 hij
      have hu : used ⟨i, hi⟩ = true := hmin ⟨i, hi⟩ (le_refl _) (by exact hlt)
      rw [hu]
      simp only [Bool.not_true, Bool.false_eq_true, if_false]
      apply ih (i + 1) (by omega) (by omega)
      intro k hk1 hk2
      exact hmin k (by omega) hk2

theorem GetFreeSpaceInChunk.loop_full (used : Bitset64) :
    ∀ (fuel i : Nat), (∀ k : Fin 64, i ≤ k.val → used k = true) →
      GetFreeSpaceInChunk.loop used fuel i = -1 := by
  intro fuel
  induction fuel with
  | zero => intro i _; rfl
  | succ fuel ih =>
    intro i hall
    unfold GetFreeSpaceInChunk.loop
    by_cases hi : i < 64
    · rw [dif_pos hi, hall ⟨i, hi⟩ (le_refl _)]
      simp only [Bool.not_true, Bool.false_eq_true, if_false]
      exact ih (i + 1) (fun k hk => hall k (by omega))
    · rw [dif_neg hi]

theorem slotOf_natCast (j : Fin 64) : slotOf (j.val : Int) = some j := by
  have h : (0 : Int) ≤ (j.val : Int) ∧ (j.val : Int) < 64 := by
    have := j.isLt; omega
  unfold slotOf
  rw [dif_pos h]
  simp

theorem slotOf_neg_one : slotOf (-1) = none := by decide

theorem GetFreeSpaceInChunk_of_firstFree {ch : Chunk} {j : Fin 64}
    (h : IsFirstFree ch.m_is_used j) : GetFreeSpaceInChunk ch = (j.val : Int) := by
  unfold GetFreeSpaceInChunk
  exact GetFreeSpaceInChunk.loop_found ch.m_is_used j h.1 64 0 (by omega) (Nat.zero_le _)
    (fun k _ hk => h.2 k hk)

theorem GetFreeSpaceInChunk_of_all {ch : Chunk} (h : ch.m_is_used.all = true) :
    GetFreeSpaceInChunk ch = -1 := by
  unfold GetFreeSpaceInChunk
  exact GetFreeSpaceInChunk.loop_full ch.m_is_used 64 0
    (fun k _ => (Bitset64.all_iff _).1 h k)

theorem GetChunkWithFreeSpace.scan_none (l : List Chunk) :
    ∀ i, GetChunkWithFreeSpace.scan l i = none ↔ AllFull l := by
  induction l with
  | nil => intro i; simp [GetChunkWithFreeSpace.scan, AllFull]
  | cons ch rest ih =>
    intro i
    unfold GetChunkWithFreeSpace.scan
    cases hall : ch.m_is_used.all with
    | true =>
      simp only [Bool.not_true, Bool.false_eq_true, if_false]
      rw [ih (i + 1)]
      simp [AllFull, hall]
    | false =>
      simp only [Bool.not_false, if_true, AllFull]
      constructor
      · intro h; cases h
      · intro h
        have := h ch (List.mem_cons_self _ _)
        rw [hall] at this; cases this

theorem GetChunkWithFreeSpace.scan_some (l : List Chunk) :
    ∀ i c, GetChunkWithFreeSpace.scan l i = some c → i ≤ c ∧ IsFirstOpen l (c - i) := by
  induction l with
  | nil => intro i c h; simp [GetChunkWithFreeSpace.scan] at h
  | cons ch rest ih =>
    intro i c h
    unfold GetChunkWithFreeSpace.scan at h
    cases hall : ch.m_is_used.all with
    | true =>
      rw [hall] at h
      simp only [Bool.not_true, Bool.false_eq_true, if_false] at h
      obtain ⟨h1, ⟨ch1, h2, h3⟩, h4⟩ := ih (i + 1) c h
      have hc : c - i = (c - (i + 1)) + 1 := by omega
      refine ⟨by omega, ⟨ch1, ?_, h3⟩, ?_⟩
      · rw [hc]; simpa using h2
      · intro k hk chk hchk
        cases k with
        | zero => simp at hchk; rw [← hchk]; exact hall
        | succ k => exact h4 k (by omega) chk (by simpa using hchk)
    | false =>
      rw [hall] at h
      simp only [Bool.not_false, if_true, Option.some.injEq] at h
      subst h
      refine ⟨le_refl _, ⟨ch, by simp, hall⟩, ?_⟩
      intro k hk; omega

/-! ## Lemmas: what `Allocate` and the deleter compute -/

theorem IsFirstOpen.scan_eq {l : List Chunk} {c : Nat} (hc : IsFirstOpen l c) :
    GetChunkWithFreeSpace.scan l 0 = some c := by
  cases hs : GetChunkWithFreeSpace.scan l 0 with
  | none =>
    obtain ⟨ch, h1, h2⟩ := hc.1
    have hfull := (GetChunkWithFreeSpace.scan_none l 0).1 hs
    have := hfull ch (List.getElem?_mem h1)
    rw [h2] at this; cases this
  | some d =>
    have hd := (GetChunkWithFreeSpace.scan_some l 0 d hs).2
    rw [Nat.sub_zero] at hd
    rw [hd.unique_chunk hc]

theorem allFull_or_firstOpen (l : List Chunk) : AllFull l ∨ ∃ c, IsFirstOpen l c := by
  cases hs : GetChunkWithFreeSpace.scan l 0 with
  | none => exact Or.inl ((GetChunkWithFreeSpace.scan_none l 0).1 hs)
  | some d =>
    have hd := (GetChunkWithFreeSpace.scan_some l 0 d hs).2
    rw [Nat.sub_zero] at hd
    exact Or.inr ⟨d, hd⟩

theorem AllFull.not_firstOpen {l : List Chunk} (h : AllFull l) (c : Nat) : ¬ IsFirstOpen l c := by
  intro hc
  obtain ⟨ch, h1, h2⟩ := hc.1
  have := h ch (List.getElem?_mem h1)
  rw [h2] at this; cases this

theorem Allocate_open {p : SmallObjectPool} {c : Nat} {ch : Chunk} {i : Fin 64}
    (hc : IsFirstOpen p.s_chunks c) (hch : p.s_chunks[c]? = some ch)
    (hi : IsFirstFree ch.m_is_used i) :
    Allocate p = .ok (⟨c, i⟩, ⟨p.s_chunks.set c (ch.claim c i)⟩) := by
  unfold Allocate GetChunkWithFreeSpace
  rw [hc.scan_eq]
  simp only [hch, GetFreeSpaceInChunk_of_firstFree hi, slotOf_natCast]
  rfl

theorem firstFree_fresh : IsFirstFree Chunk.fresh.m_is_used 0 := by
  refine ⟨rfl, ?_⟩
  intro k hk
  exact absurd hk (by simp)

theorem Allocate_full {p : SmallObjectPool} (hfull : AllFull p.s_chunks) :
    Allocate p = .ok (⟨p.s_chunks.length, 0⟩,
      ⟨p.s_chunks ++ [Chunk.fresh.claim p.s_chunks.length 0]⟩) := by
  unfold Allocate GetChunkWithFreeSpace
  rw [(GetChunkWithFreeSpace.scan_none p.s_chunks 0).2 hfull]
  simp only [List.getElem?_concat_length, GetFreeSpaceInChunk_of_firstFree firstFree_fresh,
    slotOf_natCast]
  simp [Chunk.claim]

theorem deleter_owned {p : SmallObjectPool} {h : Handle} {ch : Chunk}
    (hch : p.s_chunks[h.chunk]? = some ch)
    (ho : (ch.m_content h.slot).m_owner = some h.chunk)
    (hx : (ch.m_content h.slot).m_index = (h.slot.val : Int)) :
    deleter p (some h) = .ok ⟨p.s_chunks.set h.chunk (ch.release h.slot)⟩ := by
  have hlt : h.chunk < p.s_chunks.length := by
    rcases List.getElem?_eq_some.1 hch with ⟨hl, _⟩
    exact hl
  unfold deleter
  simp only [hch, ho, hx, slotOf_natCast, List.getElem?_set_self hlt, List.set_set]
  rfl

theorem Allocate_cases (p : SmallObjectPool) :
    (∃ c ch i, IsFirstOpen p.s_chunks c ∧ p.s_chunks[c]? = some ch ∧
        IsFirstFree ch.m_is_used i ∧
        Allocate p = .ok (⟨c, i⟩, ⟨p.s_chunks.set c (ch.claim c i)⟩)) ∨
    (AllFull p.s_chunks ∧
        Allocate p = .ok (⟨p.s_chunks.length, 0⟩,
          ⟨p.s_chunks ++ [Chunk.fresh.claim p.s_chunks.length 0]⟩)) := by
  rcases allFull_or_firstOpen p.s_chunks with hfull | ⟨c, hc⟩
  · exact Or.inr ⟨hfull, Allocate_full hfull⟩
  · obtain ⟨ch, hch, hall⟩ := hc.1
    obtain ⟨i, hi⟩ := IsFirstFree.exists_of_not_all hall
    exact Or.inl ⟨c, ch, i, hc, hch, hi, Allocate_open hc hch hi⟩

theorem Bitset64.all_false_of_unset {b : Bitset64} {i : Fin 64} (h : b i = false) :
    b.all = false :=
  (Bitset64.all_false_iff b).2 ⟨i, h⟩

theorem IsFirstOpen.set_of_prefix_full {l : List Chunk} {c : Nat} {ch1 : Chunk}
    (hlt : c < l.length)
    (hpre : ∀ k, k < c → ∀ ch, l[k]? = some ch → ch.m_is_used.all = true)
    (hopen : ch1.m_is_used.all = false) : IsFirstOpen (l.set c ch1) c := by
  refine ⟨⟨ch1, List.getElem?_set_self hlt, hopen⟩, ?_⟩
  intro k hk ch hch
  rw [List.getElem?_set_ne (by omega)] at hch
  exact hpre k hk ch hch

theorem Chunk.release_claim_bits (ch : Chunk) (c : Nat) (i : Fin 64)
    (hi : ch.m_is_used i = false) : ((ch.claim c i).release i).m_is_used = ch.m_is_used := by
  funext j
  by_cases hj : j = i
  · subst hj; simp [Chunk.release, Chunk.claim, hi]
  · simp [Chunk.release, Chunk.claim, Function.update_noteq hj]

theorem Owns_claim_set {l : List Chunk} {c : Nat} {ch : Chunk} (i : Fin 64)
    (hlt : c < l.length) :
    (SmallObjectPool.mk (l.set c (ch.claim c i))).Owns ⟨c, i⟩ := by
  refine ⟨ch.claim c i, List.getElem?_set_self hlt, ?_, ?_⟩ <;> simp [Chunk.claim]

theorem Chunk.release_unset (ch : Chunk) (i : Fin 64) : (ch.release i).m_is_used i = false := by
  simp [Chunk.release]

theorem reuse_core {l1 : List Chunk} {c : Nat} {i : Fin 64} {ch : Chunk}
    (hpre : ∀ k, k < c → ∀ x, l1[k]? = some x → x.m_is_used.all = true)
    (hi : IsFirstFree ch.m_is_used i) (hl1 : l1[c]? = some (ch.claim c i)) :
    ∃ p2 p3, deleter ⟨l1⟩ (some ⟨c, i⟩) = .ok p2 ∧ Allocate p2 = .ok (⟨c, i⟩, p3) ∧
      p3.s_chunks.length = p2.s_chunks.length ∧ p2.s_chunks.length = l1.length := by
  have hlt : c < l1.length := by
    rcases List.getElem?_eq_some.1 hl1 with ⟨hl, _⟩
    exact hl
  have hD : deleter ⟨l1⟩ (some ⟨c, i⟩) = .ok ⟨l1.set c ((ch.claim c i).release i)⟩ :=
    deleter_owned (p := ⟨l1⟩) (h := ⟨c, i⟩) hl1 (by simp [Chunk.claim]) (by simp [Chunk.claim])
  have hbits := Chunk.release_claim_bits ch c i hi.1
  have hopen : IsFirstOpen (l1.set c ((ch.claim c i).release i)) c :=
    IsFirstOpen.set_of_prefix_full hlt hpre (by rw [hbits]; exact Bitset64.all_false_of_unset hi.1)
  have hA := Allocate_open (p := ⟨l1.set c ((ch.claim c i).release i)⟩) hopen
    (List.getElem?_set_self hlt) (by rw [hbits]; exact hi)
  exact ⟨_, _, hD, hA, by simp, by simp⟩

theorem release_then_allocate {p : SmallObjectPool} {h : Handle} (ho : p.Owns h) :
    ∃ p1 h2 p2, deleter p (some h) = .ok p1 ∧ Allocate p1 = .ok (h2, p2) ∧ Handle.le h2 h ∧
      p1.s_chunks.length = p.s_chunks.length ∧ p2.s_chunks.length = p.s_chunks.length := by
  obtain ⟨ch, hch, hown, hidx⟩ := ho
  have hlt : h.chunk < p.s_chunks.length := by
    rcases List.getElem?_eq_some.1 hch with ⟨hl, _⟩
    exact hl
  have hD := deleter_owned hch hown hidx
  have hget : (p.s_chunks.set h.chunk (ch.release h.slot))[h.chunk]? = some (ch.release h.slot) :=
    List.getElem?_set_self hlt
  rcases Allocate_cases ⟨p.s_chunks.set h.chunk (ch.release h.slot)⟩ with
    ⟨c, ch1, j, hc, hch1, hj, hA⟩ | ⟨hfull, _⟩
  · refine ⟨_, _, _, hD, hA, ?_, by simp, by simp⟩
    have hle : c ≤ h.chunk := by
      by_contra hgt
      have := hc.2 h.chunk (by omega) _ hget
      rw [Bitset64.all_false_of_unset (Chunk.release_unset ch h.slot)] at this
      cases this
    rcases Nat.lt_or_eq_of_le hle with hlt1 | heq
    · exact Or.inl hlt1
    · refine Or.inr ⟨heq, ?_⟩
      subst heq
      have hsame : ch1 = ch.release h.slot := by
        have := hch1.symm.trans hget
        exact Option.some.inj this
      subst hsame
      by_contra hgt
      have := hj.2 h.slot (lt_of_not_le hgt)
      rw [Chunk.release_unset] at this
      cases this
  · have := hfull _ (List.getElem?_mem hget)
    rw [Bitset64.all_false_of_unset (Chunk.release_unset ch h.slot)] at this
    cases this

theorem GetChunkWithFreeSpace_open {p : SmallObjectPool} {c : Nat}
    (hc : IsFirstOpen p.s_chunks c) : GetChunkWithFreeSpace p = (c, p) := by
  unfold GetChunkWithFreeSpace
  rw [hc.scan_eq]

theorem GetChunkWithFreeSpace_full {p : SmallObjectPool} (hfull : AllFull p.s_chunks) :
    GetChunkWithFreeSpace p = (p.s_chunks.length, ⟨p.s_chunks ++ [Chunk.fresh]⟩) := by
  unfold GetChunkWithFreeSpace
  rw [(GetChunkWithFreeSpace.scan_none p.s_chunks 0).2 hfull]

theorem deleter_length {p p1 : SmallObjectPool} {obj : Option Handle}
    (h : deleter p obj = .ok p1) : p1.s_chunks.length = p.s_chunks.length := by
  unfold deleter at h
  split at h
  · cases h; rfl
  · split at h
    · cases h
    · simp only at h
      split at h
      · cases h
      · split at h
        · cases h
        · split at h
          · cases h
          · cases h; simp

/-! ## Lemmas: occupancy counting and the pool invariant -/

theorem Bitset64.count_zero : Bitset64.zero.count = 0 := by
  simp [Bitset64.count, Bitset64.zero]

theorem Bitset64.count_update_true {b : Bitset64} {i : Fin 64} (h : b i = false) :
    Bitset64.count (Function.update b i true) = b.count + 1 := by
  unfold Bitset64.count
  have hset : Finset.univ.filter (fun j => Function.update b i true j = true)
      = insert i (Finset.univ.filter (fun j => b j = true)) := by
    ext j
    by_cases hj : j = i
    · subst hj; simp
    · simp [Function.update_noteq hj, hj]
  rw [hset, Finset.card_insert_of_not_mem]
  simp [h]

theorem Bitset64.count_update_false {b : Bitset64} {i : Fin 64} (h : b i = true) :
    Bitset64.count (Function.update b i false) + 1 = b.count := by
  unfold Bitset64.count
  have hset : Finset.univ.filter (fun j => Function.update b i false j = true)
      = (Finset.univ.filter (fun j => b j = true)).erase i := by
    ext j
    by_cases hj : j = i
    · subst hj; simp
    · simp [Function.update_noteq hj, hj]
  rw [hset, Finset.card_erase_add_one]
  simp [h]

theorem sum_map_set {f : Chunk → Nat} :
    ∀ {l : List Chunk} {c : Nat} {ch : Chunk} (x : Chunk), l[c]? = some ch →
      ((l.set c x).map f).sum + f ch = (l.map f).sum + f x := by
  intro l
  induction l with
  | nil => intro c ch x h; simp at h
  | cons a rest ih =>
    intro c ch x h
    cases c with
    | zero =>
      simp at h
      subst h
      simp only [List.set, List.map, List.sum_cons]
      omega
    | succ c =>
      have h1 : rest[c]? = some ch := by simpa using h
      have := ih x h1
      simp only [List.set, List.map, List.sum_cons]
      omega

theorem used_set {l : List Chunk} {c : Nat} (x : Chunk) (hlt : c < l.length) (k : Nat)
    (j : Fin 64) :
    (SmallObjectPool.mk (l.set c x)).used k j
      = if k = c then x.m_is_used j else (SmallObjectPool.mk l).used k j := by
  unfold SmallObjectPool.used
  by_cases hk : k = c
  · subst hk
    simp [List.getElem?_set_self hlt]
  · simp only [hk, if_false]
    rw [List.getElem?_set_ne (Ne.symm hk)]

theorem used_append (l : List Chunk) (x : Chunk) (k : Nat) (j : Fin 64) :
    (SmallObjectPool.mk (l ++ [x])).used k j
      = if k = l.length then x.m_is_used j else (SmallObjectPool.mk l).used k j := by
  unfold SmallObjectPool.used
  by_cases hk : k = l.length
  · subst hk
    simp
  · simp only [hk, if_false]
    rcases Nat.lt_or_gt_of_ne hk with h1 | h1
    · rw [List.getElem?_append_left h1]
    · rw [List.getElem?_eq_none (by simp; omega), List.getElem?_eq_none (by omega)]

theorem used_of_getElem? {l : List Chunk} {c : Nat} {ch : Chunk} (h : l[c]? = some ch)
    (j : Fin 64) : (SmallObjectPool.mk l).used c j = ch.m_is_used j := by
  simp [SmallObjectPool.used, h]

theorem Owns_set_other {l : List Chunk} {c : Nat} {ch x : Chunk} {i : Fin 64} {h : Handle}
    (hch : l[c]? = some ch) (hx : ∀ j, j ≠ i → x.m_content j = ch.m_content j)
    (hne : h ≠ ⟨c, i⟩) (ho : (SmallObjectPool.mk l).Owns h) :
    (SmallObjectPool.mk (l.set c x)).Owns h := by
  have hlt : c < l.length := by
    rcases List.getElem?_eq_some.1 hch with ⟨hl, _⟩
    exact hl
  obtain ⟨ch0, h0, h1, h2⟩ := ho
  by_cases hc : h.chunk = c
  · have hs : h.slot ≠ i := by
      intro hs
      apply hne
      cases h
      simp at hc hs
      simp [hc, hs]
    have hsame : ch0 = ch := by
      simp only [hc] at h0
      exact Option.some.inj (h0.symm.trans hch)
    subst hsame
    refine ⟨x, ?_, ?_, ?_⟩
    · simp only [hc]
      exact List.getElem?_set_self hlt
    · rw [hx _ hs]; exact h1
    · rw [hx _ hs]; exact h2
  · refine ⟨ch0, ?_, h1, h2⟩
    simp only
    rw [List.getElem?_set_ne (Ne.symm hc)]
    exact h0

theorem Owns_append {l : List Chunk} (x : Chunk) {h : Handle}
    (ho : (SmallObjectPool.mk l).Owns h) : (SmallObjectPool.mk (l ++ [x])).Owns h := by
  obtain ⟨ch0, h0, h1, h2⟩ := ho
  have hlt : h.chunk < l.length := by
    rcases List.getElem?_eq_some.1 h0 with ⟨hl, _⟩
    exact hl
  refine ⟨ch0, ?_, h1, h2⟩
  simp only
  rw [List.getElem?_append_left hlt]
  exact h0

theorem PoolSys.Inv.init : PoolSys.init.Inv := by
  refine ⟨?_, ?_, ?_, ?_⟩
  · intro c i
    simp [PoolSys.init, SmallObjectPool.empty, SmallObjectPool.used]
  · intro h hh
    simp [PoolSys.init] at hh
  · simp [PoolSys.init]
  · simp [PoolSys.init, SmallObjectPool.empty, SmallObjectPool.occupied]

theorem PoolSys.Inv.not_live_of_unset {s : PoolSys} (hs : s.Inv) {c : Nat} {i : Fin 64}
    (h : s.pool.used c i = false) : (⟨c, i⟩ : Handle) ∉ s.live := by
  intro hm
  have := (hs.bits c i).2 hm
  rw [h] at this
  cases this

theorem PoolSys.Inv.append_fresh {l : List Chunk} {live : List Handle}
    (hs : (PoolSys.mk ⟨l⟩ live).Inv) : (PoolSys.mk ⟨l ++ [Chunk.fresh]⟩ live).Inv := by
  refine ⟨?_, ?_, hs.nodup, ?_⟩
  · intro c i
    show (SmallObjectPool.mk (l ++ [Chunk.fresh])).used c i = true ↔ _
    rw [used_append]
    by_cases hc : c = l.length
    · subst hc
      simp only [if_true]
      constructor
      · intro h; cases h
      · intro hm
        obtain ⟨ch, h0, _, _⟩ := hs.owns _ hm
        rcases List.getElem?_eq_some.1 h0 with ⟨hl, _⟩
        exact absurd hl (lt_irrefl _)
    · simp only [hc, if_false]
      exact hs.bits c i
  · intro h hm
    exact Owns_append _ (hs.owns h hm)
  · have := hs.count
    simp only [SmallObjectPool.occupied] at this ⊢
    rw [List.map_append, List.sum_append, this]
    simp [Chunk.fresh, Bitset64.count_zero]

theorem PoolSys.Inv.claim {l : List Chunk} {live : List Handle} {c : Nat} {ch : Chunk}
    {i : Fin 64} (hs : (PoolSys.mk ⟨l⟩ live).Inv) (hch : l[c]? = some ch)
    (hi : ch.m_is_used i = false) :
    (PoolSys.mk ⟨l.set c (ch.claim c i)⟩ (⟨c, i⟩ :: live)).Inv := by
  have hlt : c < l.length := by
    rcases List.getElem?_eq_some.1 hch with ⟨hl, _⟩
    exact hl
  have hunset : (SmallObjectPool.mk l).used c i = false := by
    rw [used_of_getElem? hch]; exact hi
  have hnot : (⟨c, i⟩ : Handle) ∉ live := hs.not_live_of_unset hunset
  refine ⟨?_, ?_, ?_, ?_⟩
  · intro k j
    show (SmallObjectPool.mk (l.set c (ch.claim c i))).used k j = true ↔ _
    rw [used_set _ hlt, List.mem_cons]
    by_cases hk : k = c
    · subst hk
      simp only [if_true, Chunk.claim]
      by_cases hj : j = i
      · subst hj; simp
      · rw [Function.update_noteq hj, ← used_of_getElem? hch j]
        have := hs.bits k j
        simp only at this
        rw [this]
        constructor
        · intro h; exact Or.inr h
        · intro h
          rcases h with h | h
          · exact absurd (congrArg Handle.slot h) hj
          · exact h
    · simp only [hk, if_false]
      have := hs.bits k j
      simp only at this
      rw [this]
      constructor
      · intro h; exact Or.inr h
      · intro h
        rcases h with h | h
        · exact absurd (congrArg Handle.chunk h) hk
        · exact h
  · intro h hm
    rcases List.mem_cons.1 hm with h1 | h1
    · subst h1
      exact Owns_claim_set i hlt
    · apply Owns_set_other hch (i := i) _ _ (hs.owns h h1)
      · intro j hj
        simp [Chunk.claim, Function.update_noteq hj]
      · intro he
        subst he
        exact hnot h1
  · exact List.nodup_cons.2 ⟨hnot, hs.nodup⟩
  · have h1 := hs.count
    have h2 := sum_map_set (f := fun ch => ch.m_is_used.count) (ch.claim c i) hch
    have h3 : (ch.claim c i).m_is_used.count = ch.m_is_used.count + 1 :=
      Bitset64.count_update_true hi
    simp only [SmallObjectPool.occupied, List.length_cons] at h1 h2 ⊢
    omega

theorem PoolSys.Inv.release {l : List Chunk} {live : List Handle} {c : Nat} {ch : Chunk}
    {i : Fin 64} (hs : (PoolSys.mk ⟨l⟩ live).Inv) (hch : l[c]? = some ch)
    (hm : (⟨c, i⟩ : Handle) ∈ live) :
    (PoolSys.mk ⟨l.set c (ch.release i)⟩ (live.erase ⟨c, i⟩)).Inv := by
  have hlt : c < l.length := by
    rcases List.getElem?_eq_some.1 hch with ⟨hl, _⟩
    exact hl
  have hset : ch.m_is_used i = true := by
    rw [← used_of_getElem? hch i]
    exact (hs.bits c i).2 hm
  refine ⟨?_, ?_, ?_, ?_⟩
  · intro k j
    show (SmallObjectPool.mk (l.set c (ch.release i))).used k j = true ↔ _
    rw [used_set _ hlt, hs.nodup.mem_erase_iff]
    by_cases hk : k = c
    · subst hk
      simp only [if_true, Chunk.release]
      by_cases hj : j = i
      · subst hj; simp
      · rw [Function.update_noteq hj, ← used_of_getElem? hch j]
        have := hs.bits k j
        simp only at this
        rw [this]
        constructor
        · intro h
          exact ⟨fun he => hj (congrArg Handle.slot he), h⟩
        · intro h; exact h.2
    · simp only [hk, if_false]
      have := hs.bits k j
      simp only at this
      rw [this]
      constructor
      · intro h
        exact ⟨fun he => hk (congrArg Handle.chunk he), h⟩
      · intro h; exact h.2
  · intro h hmem
    have hh := (hs.nodup.mem_erase_iff).1 hmem
    apply Owns_set_other hch (i := i) _ hh.1 (hs.owns h hh.2)
    intro j hj
    simp [Chunk.release, Function.update_noteq hj]
  · exact hs.nodup.erase _
  · have h1 := hs.count
    have h2 := sum_map_set (f := fun ch => ch.m_is_used.count) (ch.release i) hch
    have h3 : (ch.release i).m_is_used.count + 1 = ch.m_is_used.count :=
      Bitset64.count_update_false hset
    have h4 : (live.erase ⟨c, i⟩).length = live.length - 1 := List.length_erase_of_mem hm
    have h5 : 0 < live.length := List.length_pos_of_mem hm
    simp only [SmallObjectPool.occupied] at h1 h2 ⊢
    omega

theorem PoolSys.Inv.step_allocate {s : PoolSys} (hs : s.Inv) :
    ∃ s1, s.step .allocate = some s1 ∧ s1.Inv := by
  rcases Allocate_cases s.pool with ⟨c, ch, i, _, hch, hi, hA⟩ | ⟨_, hA⟩
  · refine ⟨⟨⟨s.pool.s_chunks.set c (ch.claim c i)⟩, ⟨c, i⟩ :: s.live⟩, ?_, ?_⟩
    · simp [PoolSys.step, hA]
    · exact @PoolSys.Inv.claim s.pool.s_chunks s.live c ch i hs hch hi.1
  · refine ⟨⟨⟨s.pool.s_chunks ++ [Chunk.fresh.claim s.pool.s_chunks.length 0]⟩,
      ⟨s.pool.s_chunks.length, 0⟩ :: s.live⟩, ?_, ?_⟩
    · simp [PoolSys.step, hA]
    · have h1 := @PoolSys.Inv.append_fresh s.pool.s_chunks s.live hs
      have h2 := @PoolSys.Inv.claim _ _ s.pool.s_chunks.length Chunk.fresh 0 h1
        (List.getElem?_concat_length _ _) rfl
      have h3 : (s.pool.s_chunks ++ [Chunk.fresh]).set s.pool.s_chunks.length
          (Chunk.fresh.claim s.pool.s_chunks.length 0)
          = s.pool.s_chunks ++ [Chunk.fresh.claim s.pool.s_chunks.length 0] := by
        simp
      rw [h3] at h2
      exact h2

theorem PoolSys.Inv.step_release {s : PoolSys} (hs : s.Inv) {h : Handle} (hm : h ∈ s.live) :
    ∃ s1, s.step (.release h) = some s1 ∧ s1.Inv := by
  obtain ⟨ch, hch, hown, hidx⟩ := hs.owns h hm
  have hD := deleter_owned hch hown hidx
  refine ⟨⟨⟨s.pool.s_chunks.set h.chunk (ch.release h.slot)⟩, s.live.erase h⟩, ?_, ?_⟩
  · simp [PoolSys.step, hm, hD]
  · exact @PoolSys.Inv.release s.pool.s_chunks s.live h.chunk ch h.slot hs hch hm

theorem PoolSys.Inv.step {s s1 : PoolSys} (hs : s.Inv) (op : PoolOp)
    (h : s.step op = some s1) : s1.Inv := by
  cases op with
  | allocate =>
    obtain ⟨s2, h2, hinv⟩ := hs.step_allocate
    rw [h] at h2
    cases h2
    exact hinv
  | release g =>
    by_cases hm : g ∈ s.live
    · obtain ⟨s2, h2, hinv⟩ := hs.step_release hm
      rw [h] at h2
      cases h2
      exact hinv
    · simp [PoolSys.step, hm] at h

theorem PoolSys.Inv.run {ops : List PoolOp} :
    ∀ {s s1 : PoolSys}, s.Inv → PoolSys.run s ops = some s1 → s1.Inv := by
  induction ops with
  | nil =>
    intro s s1 hs h
    simp only [PoolSys.run, Option.some.injEq] at h
    subst h
    exact hs
  | cons op ops ih =>
    intro s s1 hs h
    unfold PoolSys.run at h
    cases hstep : s.step op with
    | none => rw [hstep] at h; cases h
    | some s2 =>
      rw [hstep] at h
      exact ih (hs.step op hstep) h

/-! ## Theorems: Data -/

/-- Claim C1 (code defect): on the spec scenario, segments of sizes `[4,4]` and
`write("ABCDEFGH", 8, 2)`, the code copies `min(size, seg.size) = 4` bytes at
in-segment offset 2 of the first segment, so the second segment ends up as
`E F G H` instead of the contract's `C D E F`, and the bytes `C D` land at the
two addresses behind the first segment. -/
theorem write_scenario_diverges :
    DisjointSegments scenarioData.segments ∧
    scenarioData.size = 8 ∧
    (Data.write scenarioData memX scenarioSource 8 2).toOption.map (Data.contents scenarioData)
      = some ['x', 'x', 'A', 'B', 'E', 'F', 'G', 'H'] ∧
    spliced (Data.contents scenarioData memX) scenarioSource 8 2
      = ['x', 'x', 'A', 'B', 'C', 'D', 'E', 'F'] ∧
    (Data.write scenarioData memX scenarioSource 8 2).toOption.map (fun m => (m 104, m 105))
      = some ('C', 'D') := by
  decide

/-- Claim C2: on the null `Data` object, `write` throws exactly when the length
is nonzero, whatever the offset; a zero-length write returns normally and
leaves memory as it was. -/
theorem write_null_raises_iff (mem : Memory) (data : List Char) (size offset : Nat) :
    ((∃ e, Data.write Data.null mem data size offset = .error e) ↔ size ≠ 0) ∧
    Data.write Data.null mem data 0 offset = .ok mem := by
  constructor
  · by_cases hs : size = 0
    · subst hs
      simp [Data.write, Data.null, Data.segments, Data.write.loop]
    · simp [Data.write, Data.null, hs]
  · simp [Data.write, Data.null, Data.segments, Data.write.loop]

/-- Claim C3 (counterexample): a one-byte write at offset 0 to the empty buffer
`Data(ctx, free_cb)` returns normally; no exception is thrown. -/
theorem write_empty_returns_ok :
    Data.write (Data.mk1 nullptr none) memX ['A'] 1 0 = .ok memX := by
  simp [Data.write, Data.mk1, Data.segments, DataImpl.mkEmpty, Data.write.loop]

/-- Claim C3 (amended): on the empty buffer `Data(ctx, free_cb)` (non-null, no
segments, size 0) every write, of any length at any offset, returns normally
and leaves memory unchanged. -/
theorem write_empty_is_noop (ctx : Nat) (free_cb : FreeCallback) (mem : Memory)
    (data : List Char) (size offset : Nat) :
    (Data.mk1 ctx free_cb).segments = [] ∧ (Data.mk1 ctx free_cb).size = 0 ∧
    Data.write (Data.mk1 ctx free_cb) mem data size offset = .ok mem := by
  simp [Data.write, Data.mk1, Data.segments, Data.size, DataImpl.mkEmpty, Data.write.loop]

/-- Claim C9: on a null `Data` the accessors give the empty segment list, size 0
and the null context; on a non-null `Data` they give the stored segment list,
the stored total size and the stored context. -/
theorem accessors_null_and_stored (impl : DataImpl) :
    (Data.mk none).segments = [] ∧ (Data.mk none).size = 0 ∧
    (Data.mk none).context = nullptr ∧
    (Data.mk (some impl)).segments = impl.m_segments ∧
    (Data.mk (some impl)).size = impl.m_size ∧
    (Data.mk (some impl)).context = impl.m_context :=
  ⟨rfl, rfl, rfl, rfl, rfl, rfl⟩

/-! ## Theorems: SmallObjectPool -/

/-- Claim C4: pool occupancy invariant.  Starting from the empty pool, after
every finite sequence of `Allocate` and release steps (a release step takes a
live handle and removes it from the live set), the number of set occupancy bits
over all chunks equals the number of live handles, each live handle's slot has
its bit set, no two live handles refer to the same (chunk, slot), and each live
handle's entry carries its own chunk and index.  No such run gets stuck: in the
reached state `Allocate` and the release of every live handle succeed. -/
theorem pool_occupancy_invariant (ops : List PoolOp) (s : PoolSys)
    (hrun : PoolSys.run PoolSys.init ops = some s) :
    s.pool.occupied = s.live.length ∧
    (∀ h ∈ s.live, s.pool.used h.chunk h.slot = true) ∧
    s.live.Nodup ∧
    (∀ h ∈ s.live, s.pool.Owns h) ∧
    (s.step .allocate).isSome = true ∧
    (∀ h ∈ s.live, (s.step (.release h)).isSome = true) := by
  have hs : s.Inv := PoolSys.Inv.run PoolSys.Inv.init hrun
  refine ⟨hs.count, ?_, hs.nodup, hs.owns, ?_, ?_⟩
  · intro h hm
    exact (hs.bits h.chunk h.slot).2 hm
  · obtain ⟨s1, h1, _⟩ := hs.step_allocate
    rw [h1]; rfl
  · intro h hm
    obtain ⟨s1, h1, _⟩ := hs.step_release hm
    rw [h1]; rfl

/-- Witness for C4: the run allocate, allocate, release `(0,0)`, allocate from
the empty pool reaches a state, and the invariant holds there. -/
theorem pool_occupancy_invariant_witness :
    ∃ s, PoolSys.run PoolSys.init [.allocate, .allocate, .release ⟨0, 0⟩, .allocate] = some s ∧
      s.pool.occupied = s.live.length ∧
      (∀ h ∈ s.live, s.pool.used h.chunk h.slot = true) ∧
      s.live.Nodup ∧
      (∀ h ∈ s.live, s.pool.Owns h) ∧
      (s.step .allocate).isSome = true ∧
      (∀ h ∈ s.live, (s.step (.release h)).isSome = true) := by
  have hsome : (PoolSys.run PoolSys.init
      [.allocate, .allocate, .release ⟨0, 0⟩, .allocate]).isSome = true := by decide
  obtain ⟨s, hs⟩ := Option.isSome_iff_exists.1 hsome
  exact ⟨s, hs, pool_occupancy_invariant _ s hs⟩

/-- Claim C5: `Allocate` is first-fit.  For every pool state it returns a handle
`(c, i)`: either `c` is the smallest chunk position whose bitset is not all-set
and `i` the smallest unset index of that chunk (and no chunk is appended), or
every existing chunk is full (or there is none), `c` is the position of a chunk
newly appended at the end of the sequence and `i = 0`. -/
theorem Allocate_first_fit (p : SmallObjectPool) :
    ∃ h p1, Allocate p = .ok (h, p1) ∧
      ((IsFirstOpen p.s_chunks h.chunk ∧
          (∃ ch, p.s_chunks[h.chunk]? = some ch ∧ IsFirstFree ch.m_is_used h.slot) ∧
          p1.s_chunks.length = p.s_chunks.length) ∨
       (AllFull p.s_chunks ∧ h.chunk = p.s_chunks.length ∧ h.slot = 0 ∧
          ∃ ch1, p1.s_chunks = p.s_chunks ++ [ch1])) := by
  rcases Allocate_cases p with ⟨c, ch, i, hc, hch, hi, hA⟩ | ⟨hfull, hA⟩
  · exact ⟨_, _, hA, Or.inl ⟨hc, ⟨ch, hch, hi⟩, by simp⟩⟩
  · exact ⟨_, _, hA, Or.inr ⟨hfull, rfl, rfl, _, rfl⟩⟩

/-- Claim C6: slot reuse after release.  For every pool state, `Allocate`
returns some slot `(c, i)`, releasing that handle succeeds, and the next
`Allocate` returns the same slot `(c, i)` without creating a chunk.  More
generally, after the release of any handle whose entry carries the bookkeeping
of `Allocate`, the next `Allocate` returns a slot at or before the released one
in (chunk position, slot index) lexicographic order. -/
theorem slot_reuse_after_release (p : SmallObjectPool) :
    (∃ h p1 p2 p3, Allocate p = .ok (h, p1) ∧ deleter p1 (some h) = .ok p2 ∧
        Allocate p2 = .ok (h, p3) ∧ p3.s_chunks.length = p2.s_chunks.length ∧
        p2.s_chunks.length = p1.s_chunks.length) ∧
    (∀ h, p.Owns h → ∃ p1 h2 p2, deleter p (some h) = .ok p1 ∧ Allocate p1 = .ok (h2, p2) ∧
        Handle.le h2 h) := by
  constructor
  · rcases Allocate_cases p with ⟨c, ch, i, hc, hch, hi, hA⟩ | ⟨hfull, hA⟩
    · have hlt : c < p.s_chunks.length := by
        rcases List.getElem?_eq_some.1 hch with ⟨hl, _⟩
        exact hl
      have hpre : ∀ k, k < c → ∀ x, (p.s_chunks.set c (ch.claim c i))[k]? = some x →
          x.m_is_used.all = true := by
        intro k hk x hx
        rw [List.getElem?_set_ne (by omega)] at hx
        exact hc.2 k hk x hx
      obtain ⟨p2, p3, hD, hA2, h32, h21⟩ := reuse_core hpre hi (List.getElem?_set_self hlt)
      exact ⟨_, _, p2, p3, hA, hD, hA2, h32, h21⟩
    · have hpre : ∀ k, k < p.s_chunks.length → ∀ x,
          (p.s_chunks ++ [Chunk.fresh.claim p.s_chunks.length 0])[k]? = some x →
          x.m_is_used.all = true := by
        intro k hk x hx
        rw [List.getElem?_append_left hk] at hx
        exact hfull x (List.getElem?_mem hx)
      obtain ⟨p2, p3, hD, hA2, h32, h21⟩ :=
        reuse_core hpre firstFree_fresh (List.getElem?_concat_length _ _)
      exact ⟨_, _, p2, p3, hA, hD, hA2, h32, h21⟩
  · intro h ho
    obtain ⟨p1, h2, p2, hD, hA, hle, _, _⟩ := release_then_allocate ho
    exact ⟨p1, h2, p2, hD, hA, hle⟩


/-- Witness for C6: in the sample pool the handle `(0,0)` carries its
bookkeeping; after its release the next `Allocate` returns a slot at or before
`(0,0)`. -/
theorem slot_reuse_after_release_witness :
    samplePool.Owns ⟨0, 0⟩ ∧
    ∃ p1 h2 p2, deleter samplePool (some ⟨0, 0⟩) = .ok p1 ∧ Allocate p1 = .ok (h2, p2) ∧
      Handle.le h2 ⟨0, 0⟩ :=
  ⟨⟨_, rfl, rfl, rfl⟩, (slot_reuse_after_release samplePool).2 ⟨0, 0⟩ ⟨_, rfl, rfl, rfl⟩⟩

/-- Claim C7: the pool is append-only and never shrinks.  For every pool state,
`Allocate` succeeds and the chunk sequence afterwards is the previous one with
exactly one chunk appended when every existing chunk has all 64 bits set (or no
chunk exists), and otherwise the previous one with the chosen chunk updated in
place (same length, every position kept); a release, whenever the deleter
returns, leaves the number of chunks unchanged, and it does return for the null
pointer and for every handle whose entry carries the bookkeeping of `Allocate`. -/
theorem pool_append_only (p : SmallObjectPool) :
    (∃ h p1, Allocate p = .ok (h, p1) ∧
      p.s_chunks.length ≤ p1.s_chunks.length ∧
      (AllFull p.s_chunks → ∃ ch1, p1.s_chunks = p.s_chunks ++ [ch1]) ∧
      (¬ AllFull p.s_chunks →
        ∃ ch1, p1.s_chunks = p.s_chunks.set h.chunk ch1 ∧
          p1.s_chunks.length = p.s_chunks.length)) ∧
    (∀ obj p1, deleter p obj = .ok p1 → p1.s_chunks.length = p.s_chunks.length) ∧
    deleter p none = .ok p ∧
    (∀ h, p.Owns h →
      ∃ p1, deleter p (some h) = .ok p1 ∧ p1.s_chunks.length = p.s_chunks.length) := by
  refine ⟨?_, fun obj p1 h => deleter_length h, rfl, ?_⟩
  · rcases Allocate_cases p with ⟨c, ch, i, hc, hch, hi, hA⟩ | ⟨hfull, hA⟩
    · refine ⟨_, _, hA, by simp, ?_, ?_⟩
      · intro hfull
        exact absurd hc (hfull.not_firstOpen c)
      · intro _
        exact ⟨_, rfl, by simp⟩
    · refine ⟨_, _, hA, by simp, ?_, ?_⟩
      · intro _
        exact ⟨_, rfl⟩
      · intro hn
        exact absurd hfull hn
  · intro h ho
    obtain ⟨ch, hch, hown, hidx⟩ := ho
    exact ⟨_, deleter_owned hch hown hidx, by simp⟩

/-- Witness for C7: the empty pool is all-full and `Allocate` appends one chunk
to it; the sample pool is not all-full, and releasing its handle `(0,0)` keeps
the number of chunks. -/
theorem pool_append_only_witness :
    AllFull SmallObjectPool.empty.s_chunks ∧ ¬ AllFull samplePool.s_chunks ∧
    samplePool.Owns ⟨0, 0⟩ ∧
    ∃ p1, deleter samplePool (some ⟨0, 0⟩) = .ok p1 ∧
      p1.s_chunks.length = samplePool.s_chunks.length :=
  ⟨by simp [AllFull, SmallObjectPool.empty],
    fun h => absurd (h (Chunk.fresh.claim 0 0) (List.mem_singleton_self _)) (by decide),
    ⟨_, rfl, rfl, rfl⟩,
    (pool_append_only samplePool).2.2.2 ⟨0, 0⟩ ⟨_, rfl, rfl, rfl⟩⟩

/-- Claim C8: slot scans never fail.  For every pool state,
`GetFreeSpaceInChunk` applied to the chunk returned by `GetChunkWithFreeSpace`
does not return `-1`; the index lies in `0..63`, its occupancy bit is unset, it
is a valid position for `bitset::set` and `m_content[...]`, and `Allocate`
returns a handle for exactly that slot. -/
theorem slot_scan_never_fails (p : SmallObjectPool) :
    ∃ (ch : Chunk) (j : Fin 64),
      (GetChunkWithFreeSpace p).2.s_chunks[(GetChunkWithFreeSpace p).1]? = some ch ∧
      GetFreeSpaceInChunk ch ≠ -1 ∧
      0 ≤ GetFreeSpaceInChunk ch ∧ GetFreeSpaceInChunk ch < 64 ∧
      GetFreeSpaceInChunk ch = (j.val : Int) ∧
      ch.m_is_used j = false ∧
      slotOf (GetFreeSpaceInChunk ch) = some j ∧
      ∃ p1, Allocate p = .ok (⟨(GetChunkWithFreeSpace p).1, j⟩, p1) := by
  have key : ∀ (ch : Chunk) (j : Fin 64), IsFirstFree ch.m_is_used j →
      GetFreeSpaceInChunk ch ≠ -1 ∧
      0 ≤ GetFreeSpaceInChunk ch ∧ GetFreeSpaceInChunk ch < 64 ∧
      GetFreeSpaceInChunk ch = (j.val : Int) ∧
      ch.m_is_used j = false ∧
      slotOf (GetFreeSpaceInChunk ch) = some j := by
    intro ch j hj
    have hv := GetFreeSpaceInChunk_of_firstFree hj
    have hlt := j.isLt
    refine ⟨by omega, by omega, by omega, hv, hj.1, ?_⟩
    rw [hv]; exact slotOf_natCast j
  rcases Allocate_cases p with ⟨c, ch, i, hc, hch, hi, hA⟩ | ⟨hfull, hA⟩
  · rw [GetChunkWithFreeSpace_open hc]
    obtain ⟨k1, k2, k3, k4, k5, k6⟩ := key ch i hi
    exact ⟨ch, i, hch, k1, k2, k3, k4, k5, k6, _, hA⟩
  · rw [GetChunkWithFreeSpace_full hfull]
    obtain ⟨k1, k2, k3, k4, k5, k6⟩ := key Chunk.fresh 0 firstFree_fresh
    exact ⟨Chunk.fresh, 0, List.getElem?_concat_length _ _, k1, k2, k3, k4, k5, k6, _, hA⟩

/-! ## Lemmas: writes that carry no bytes -/

theorem DataImpl.wellFormed_mkEmpty (ctx : Nat) (free_cb : FreeCallback) :
    (DataImpl.mkEmpty ctx free_cb).WellFormed := rfl

theorem DataImpl.wellFormed_mkSingle (ptr size ctx : Nat) (free_cb : FreeCallback) :
    (DataImpl.mkSingle ptr size ctx free_cb).WellFormed := by
  simp [DataImpl.WellFormed, DataImpl.mkSingle]

theorem DataImpl.wellFormed_mkSegments (segments : List Segment) (ctx : Nat)
    (free_cb : FreeCallback) : (DataImpl.mkSegments segments ctx free_cb).WellFormed := rfl

theorem memcpy_zero (mem : Memory) (dst : Nat) (src : List Char) : memcpy mem dst src 0 = mem := by
  funext a
  simp [memcpy]

theorem foldl_run_of_no_bytes (data : List Char) :
    ∀ (cs : List Copy) (mem : Memory), (∀ c ∈ cs, c.n = 0) →
      cs.foldl (Copy.run data) mem = mem := by
  intro cs
  induction cs with
  | nil => intro mem _; rfl
  | cons c cs ih =>
    intro mem h
    have hc : c.n = 0 := h c (List.mem_cons_self _ _)
    simp only [List.foldl_cons, Copy.run, hc, memcpy_zero]
    exact ih mem (fun d hd => h d (List.mem_cons_of_mem _ hd))

theorem Data.write.loop_size_zero :
    ∀ (segs : List Segment) (offset off : Nat),
      ∀ c ∈ Data.write.loop segs offset off 0, c.n = 0 := by
  intro segs
  induction segs with
  | nil => intro offset off c hc; simp [Data.write.loop] at hc
  | cons seg rest ih =>
    intro offset off c hc
    unfold Data.write.loop at hc
    by_cases h : offset ≥ seg.size
    · rw [if_pos h] at hc
      exact ih _ _ c hc
    · rw [if_neg h] at hc
      simp at hc
      rw [hc]

theorem Data.write.loop_offset_past :
    ∀ (segs : List Segment) (offset off size : Nat),
      offset ≥ (segs.map Segment.size).sum → Data.write.loop segs offset off size = [] := by
  intro segs
  induction segs with
  | nil => intro offset off size _; rfl
  | cons seg rest ih =>
    intro offset off size h
    simp only [List.map_cons, List.sum_cons] at h
    unfold Data.write.loop
    rw [if_pos (by omega)]
    exact ih _ _ _ (by omega)

/-! ## Theorems: Data, continued -/

/-- Claim C11 (code defect, the same one as C1): on the spec scenario, segments
of sizes `[4,4]` and `write("ABCDEFGH", 8, 2)`, the first `memcpy` starts at
in-segment offset 2 of a segment of size 4 and copies `min(8, 4) = 4` bytes, not
`min(8, 4 - 2) = 2`: its range `[2, 6)` leaves the segment. -/
theorem write_scenario_overruns_segment :
    scenarioData.self.isSome = true ∧
    Data.write.loop scenarioData.segments 2 0 8
      = [⟨⟨100, 4⟩, 2, 0, 4⟩, ⟨⟨200, 4⟩, 0, 4, 4⟩] ∧
    ¬ Copy.InBounds ⟨⟨100, 4⟩, 2, 0, 4⟩ ∧
    (4 : Nat) ≠ min 8 (4 - 2) ∧
    ¬ (∀ c ∈ Data.write.loop scenarioData.segments 2 0 8, c.InBounds) := by
  decide

/-- Claim C12: writes that carry no bytes are silent no-ops.  On every non-null
buffer whose size is the sum of its segment sizes, a write with `length = 0` or
`offset >= size()` throws nothing, every `memcpy` it issues (if any) has length
0, and memory is returned unchanged, so every byte of every segment is as
before. -/
theorem write_no_bytes_is_noop (impl : DataImpl) (mem : Memory) (data : List Char)
    (size offset : Nat) (hwf : impl.WellFormed)
    (h : size = 0 ∨ offset ≥ (Data.mk (some impl)).size) :
    Data.write ⟨some impl⟩ mem data size offset = .ok mem ∧
    (∀ c ∈ Data.write.loop (Data.mk (some impl)).segments offset 0 size, c.n = 0) ∧
    (Data.write ⟨some impl⟩ mem data size offset).toOption.map (Data.contents ⟨some impl⟩)
      = some (Data.contents ⟨some impl⟩ mem) := by
  have hn : ∀ c ∈ Data.write.loop impl.m_segments offset 0 size, c.n = 0 := by
    rcases h with h | h
    · subst h
      exact Data.write.loop_size_zero _ _ _
    · have hp : offset ≥ (impl.m_segments.map Segment.size).sum := by
        have hw : impl.m_size = (impl.m_segments.map Segment.size).sum := hwf
        simp only [Data.size] at h
        omega
      rw [Data.write.loop_offset_past _ _ _ _ hp]
      intro c hc
      cases hc
  have hw : Data.write ⟨some impl⟩ mem data size offset = .ok mem := by
    simp only [Data.write, Data.segments, Option.isNone_some, Bool.false_eq_true, false_and,
      if_false]
    rw [foldl_run_of_no_bytes data _ mem hn]
  refine ⟨hw, hn, ?_⟩
  rw [hw]
  rfl

/-- Witness for C12: a zero-length write at offset 2 and a two-byte write at
offset 8 (the end) of the two-segment scenario buffer both leave memory as it
was. -/
theorem write_no_bytes_is_noop_witness :
    Data.write scenarioData memX scenarioSource 0 2 = .ok memX ∧
    Data.write scenarioData memX scenarioSource 2 8 = .ok memX :=
  ⟨(write_no_bytes_is_noop _ memX scenarioSource 0 2 (by decide) (Or.inl rfl)).1,
   (write_no_bytes_is_noop _ memX scenarioSource 2 8 (by decide) (Or.inr (by decide))).1⟩

/-! ## Theorems: SmallObjectPool, continued -/

/-- Claim C13: `Allocate` and release each flip exactly one occupancy bit.  For
every pool state, `Allocate` returns a handle whose bit was unset and is set
afterwards, and every other bit of the pool is as before (a bit of a chunk that
does not exist reads as unset, so the other bits of a newly appended chunk are
unset).  Releasing a handle at `(c, i)` whose entry carries the bookkeeping of
`Allocate` leaves bit `i` of chunk `c` unset and every other bit of every chunk
as before. -/
theorem allocate_release_flip_one_bit (p : SmallObjectPool) :
    (∃ h p1, Allocate p = .ok (h, p1) ∧
      p.used h.chunk h.slot = false ∧ p1.used h.chunk h.slot = true ∧
      ∀ c i, (c, i) ≠ (h.chunk, h.slot) → p1.used c i = p.used c i) ∧
    (∀ h, p.Owns h → ∃ p1, deleter p (some h) = .ok p1 ∧
      p1.used h.chunk h.slot = false ∧
      ∀ c i, (c, i) ≠ (h.chunk, h.slot) → p1.used c i = p.used c i) := by
  constructor
  · rcases Allocate_cases p with ⟨c, ch, i, _, hch, hi, hA⟩ | ⟨_, hA⟩
    · have hlt : c < p.s_chunks.length := by
        rcases List.getElem?_eq_some.1 hch with ⟨hl, _⟩
        exact hl
      refine ⟨_, _, hA, ?_, ?_, ?_⟩
      · show (SmallObjectPool.mk p.s_chunks).used c i = false
        rw [used_of_getElem? hch]; exact hi.1
      · show (SmallObjectPool.mk (p.s_chunks.set c (ch.claim c i))).used c i = true
        rw [used_set _ hlt]; simp [Chunk.claim]
      · intro k j hne
        show (SmallObjectPool.mk (p.s_chunks.set c (ch.claim c i))).used k j
          = (SmallObjectPool.mk p.s_chunks).used k j
        rw [used_set _ hlt]
        by_cases hk : k = c
        · subst hk
          have hj : j ≠ i := fun hj => hne (by rw [hj])
          simp only [if_true, Chunk.claim, Function.update_noteq hj]
          rw [used_of_getElem? hch]
        · simp only [hk, if_false]
    · have hnone : ∀ j, (SmallObjectPool.mk p.s_chunks).used p.s_chunks.length j = false := by
        intro j
        simp [SmallObjectPool.used]
      refine ⟨_, _, hA, hnone 0, ?_, ?_⟩
      · show (SmallObjectPool.mk (p.s_chunks ++
          [Chunk.fresh.claim p.s_chunks.length 0])).used p.s_chunks.length 0 = true
        rw [used_append]; simp [Chunk.claim]
      · intro k j hne
        show (SmallObjectPool.mk (p.s_chunks ++
          [Chunk.fresh.claim p.s_chunks.length 0])).used k j = (SmallObjectPool.mk p.s_chunks).used k j
        rw [used_append]
        by_cases hk : k = p.s_chunks.length
        · subst hk
          have hj : j ≠ 0 := fun hj => hne (by rw [hj])
          simp only [if_true, Chunk.claim, Function.update_noteq hj]
          rw [hnone j]
          rfl
        · simp only [hk, if_false]
  · intro h ho
    obtain ⟨ch, hch, hown, hidx⟩ := ho
    have hlt : h.chunk < p.s_chunks.length := by
      rcases List.getElem?_eq_some.1 hch with ⟨hl, _⟩
      exact hl
    refine ⟨_, deleter_owned hch hown hidx, ?_, ?_⟩
    · show (SmallObjectPool.mk (p.s_chunks.set h.chunk (ch.release h.slot))).used h.chunk h.slot
        = false
      rw [used_set _ hlt]; simp [Chunk.release]
    · intro k j hne
      show (SmallObjectPool.mk (p.s_chunks.set h.chunk (ch.release h.slot))).used k j
        = (SmallObjectPool.mk p.s_chunks).used k j
      rw [used_set _ hlt]
      by_cases hk : k = h.chunk
      · subst hk
        have hj : j ≠ h.slot := fun hj => hne (by rw [hj])
        simp only [if_true, Chunk.release, Function.update_noteq hj]
        rw [used_of_getElem? hch]
      · simp only [hk, if_false]

/-- Witness for C13: in the sample pool the handle `(0,0)` carries its
bookkeeping and its bit is set; its release leaves that bit unset and the bit of
slot `(0,1)` as it was. -/
theorem allocate_release_flip_one_bit_witness :
    samplePool.Owns ⟨0, 0⟩ ∧ samplePool.used 0 0 = true ∧
    ∃ p1, deleter samplePool (some ⟨0, 0⟩) = .ok p1 ∧ p1.used 0 0 = false ∧
      p1.used 0 1 = samplePool.used 0 1 := by
  obtain ⟨p1, h1, h2, h3⟩ :=
    (allocate_release_flip_one_bit samplePool).2 ⟨0, 0⟩ ⟨_, rfl, rfl, rfl⟩
  exact ⟨⟨_, rfl, rfl, rfl⟩, by decide, p1, h1, h2, h3 0 1 (by decide)⟩

/-! ## Lemmas: the step-by-step pool code -/

theorem deleter_steps_last (p : SmallObjectPool) (obj : Option Handle) :
    deleter p obj = (deleter.steps p obj).map (fun tr => lastState tr p) := by
  unfold deleter deleter.steps
  cases obj with
  | none => rfl
  | some h =>
    simp only
    cases h0 : p.s_chunks[h.chunk]? with
    | none => rfl
    | some ch0 =>
      simp only [List.set_set, Function.update_idem]
      cases hown : (ch0.m_content h.slot).m_owner with
      | none => rfl
      | some c =>
        simp only
        split
        · rfl
        · split
          · rfl
          · rfl

theorem Allocate_steps_last (p : SmallObjectPool) :
    Allocate p = (Allocate.steps p).map (fun r => (r.1, lastState r.2 p)) := by
  unfold Allocate Allocate.steps
  simp only
  split
  · rfl
  · split
    · rfl
    · simp [Except.map, lastState, List.set_set, Function.update_idem]

theorem Allocate_steps_open {p : SmallObjectPool} {c : Nat} {ch : Chunk} {i : Fin 64}
    (hc : IsFirstOpen p.s_chunks c) (hch : p.s_chunks[c]? = some ch)
    (hi : IsFirstFree ch.m_is_used i) :
    Allocate.steps p = .ok (⟨c, i⟩,
      [(.setBit c i, ⟨p.s_chunks.set c (ch.mark i)⟩),
       (.construct ⟨c, i⟩, ⟨p.s_chunks.set c (ch.claim c i)⟩)]) := by
  unfold Allocate.steps GetChunkWithFreeSpace
  rw [hc.scan_eq]
  simp only [hch, GetFreeSpaceInChunk_of_firstFree hi, slotOf_natCast, List.set_set,
    List.nil_append]
  rfl

theorem Allocate_steps_full {p : SmallObjectPool} (hfull : AllFull p.s_chunks) :
    Allocate.steps p = .ok (⟨p.s_chunks.length, 0⟩,
      [(.create p.s_chunks.length, ⟨p.s_chunks ++ [Chunk.fresh]⟩),
       (.setBit p.s_chunks.length 0, ⟨p.s_chunks ++ [Chunk.fresh.mark 0]⟩),
       (.construct ⟨p.s_chunks.length, 0⟩,
          ⟨p.s_chunks ++ [Chunk.fresh.claim p.s_chunks.length 0]⟩)]) := by
  unfold Allocate.steps GetChunkWithFreeSpace
  rw [(GetChunkWithFreeSpace.scan_none p.s_chunks 0).2 hfull]
  simp only [List.getElem?_concat_length, GetFreeSpaceInChunk_of_firstFree firstFree_fresh,
    slotOf_natCast, List.set_set]
  simp [Chunk.claim, Chunk.mark]

theorem deleter_steps_owned {p : SmallObjectPool} {h : Handle} {ch : Chunk}
    (hch : p.s_chunks[h.chunk]? = some ch)
    (ho : (ch.m_content h.slot).m_owner = some h.chunk)
    (hx : (ch.m_content h.slot).m_index = (h.slot.val : Int)) :
    deleter.steps p (some h) = .ok
      [(.destruct h, ⟨p.s_chunks.set h.chunk (ch.destroyed h.slot)⟩),
       (.unlink h, ⟨p.s_chunks.set h.chunk (ch.unlinked h.slot)⟩),
       (.resetBit h.chunk h.slot, ⟨p.s_chunks.set h.chunk (ch.release h.slot)⟩)] := by
  have hlt : h.chunk < p.s_chunks.length := by
    rcases List.getElem?_eq_some.1 hch with ⟨hl, _⟩
    exact hl
  unfold deleter.steps
  simp only [hch, ho, hx, slotOf_natCast, List.getElem?_set_self hlt, List.set_set,
    Function.update_idem]
  simp [Chunk.destroyed, Chunk.unlinked, Chunk.release, ho, hx]

theorem lastState_append (a b : List (PoolEvent × SmallObjectPool)) (p : SmallObjectPool) :
    lastState (a ++ b) p = lastState b (lastState a p) := by
  unfold lastState
  rw [List.getLast?_append]
  cases b.getLast? with
  | none => simp
  | some x => simp

theorem released_of_clean {l : List Chunk} (h : ∀ ch ∈ l, ch.Clean) :
    (SmallObjectPool.mk l).FreeSlotsReleased := by
  intro ch hch i hi
  rcases h ch hch i hi with h1 | h1 <;> rw [h1] <;> rfl

theorem Chunk.clean_fresh : Chunk.fresh.Clean := by
  intro i _
  exact Or.inl rfl

theorem Chunk.clean_mark {ch : Chunk} (h : ch.Clean) (i : Fin 64) : (ch.mark i).Clean := by
  intro j hj
  have hne : j ≠ i := by
    intro he; subst he; simp [Chunk.mark] at hj
  simp only [Chunk.mark, Function.update_noteq hne] at hj ⊢
  exact h j hj

theorem Chunk.clean_claim {ch : Chunk} (h : ch.Clean) (c : Nat) (i : Fin 64) :
    (ch.claim c i).Clean := by
  intro j hj
  have hne : j ≠ i := by
    intro he; subst he; simp [Chunk.claim] at hj
  simp only [Chunk.claim, Function.update_noteq hne] at hj ⊢
  exact h j hj

theorem Chunk.clean_destroyed {ch : Chunk} (h : ch.Clean) {i : Fin 64}
    (hi : ch.m_is_used i = true) : (ch.destroyed i).Clean := by
  intro j hj
  have hj1 : ch.m_is_used j = false := hj
  have hne : j ≠ i := by
    intro he; subst he; rw [hi] at hj1; cases hj1
  simp only [Chunk.destroyed, Function.update_noteq hne]
  exact h j hj1

theorem Chunk.clean_unlinked {ch : Chunk} (h : ch.Clean) {i : Fin 64}
    (hi : ch.m_is_used i = true) : (ch.unlinked i).Clean := by
  intro j hj
  have hj1 : ch.m_is_used j = false := hj
  have hne : j ≠ i := by
    intro he; subst he; rw [hi] at hj1; cases hj1
  simp only [Chunk.unlinked, Function.update_noteq hne]
  exact h j hj1

theorem Chunk.clean_release {ch : Chunk} (h : ch.Clean) (i : Fin 64) : (ch.release i).Clean := by
  intro j hj
  by_cases hne : j = i
  · subst hne
    right
    simp [Chunk.release]
  · simp only [Chunk.release, Function.update_noteq hne] at hj ⊢
    exact h j hj

theorem clean_set {l : List Chunk} (h : ∀ ch ∈ l, ch.Clean) (c : Nat) {x : Chunk}
    (hx : x.Clean) : ∀ ch ∈ l.set c x, ch.Clean := by
  intro ch hch
  rcases List.mem_or_eq_of_mem_set hch with h1 | h1
  · exact h ch h1
  · rw [h1]; exact hx

theorem clean_append {l : List Chunk} (h : ∀ ch ∈ l, ch.Clean) {x : Chunk}
    (hx : x.Clean) : ∀ ch ∈ l ++ [x], ch.Clean := by
  intro ch hch
  rcases List.mem_append.1 hch with h1 | h1
  · exact h ch h1
  · rw [List.mem_singleton.1 h1]; exact hx

theorem Holds_owns {p : SmallObjectPool} {h : Handle} (hh : p.Holds h) : p.Owns h := by
  unfold SmallObjectPool.Holds SmallObjectPool.entryAt at hh
  cases hch : p.s_chunks[h.chunk]? with
  | none => rw [hch] at hh; cases hh
  | some ch =>
    rw [hch] at hh
    have he : ch.m_content h.slot = ⟨true, some h.chunk, (h.slot.val : Int)⟩ :=
      Option.some.inj hh
    exact ⟨ch, hch, by rw [he], by rw [he]⟩

theorem Holds_getElem {p : SmallObjectPool} {h : Handle} (hh : p.Holds h) :
    ∃ ch, p.s_chunks[h.chunk]? = some ch ∧
      ch.m_content h.slot = ⟨true, some h.chunk, (h.slot.val : Int)⟩ := by
  unfold SmallObjectPool.Holds SmallObjectPool.entryAt at hh
  cases hch : p.s_chunks[h.chunk]? with
  | none => rw [hch] at hh; cases hh
  | some ch =>
    rw [hch] at hh
    exact ⟨ch, rfl, Option.some.inj hh⟩

theorem Holds_of_getElem {p : SmallObjectPool} {h : Handle} {ch : Chunk}
    (hch : p.s_chunks[h.chunk]? = some ch)
    (he : ch.m_content h.slot = ⟨true, some h.chunk, (h.slot.val : Int)⟩) : p.Holds h := by
  unfold SmallObjectPool.Holds SmallObjectPool.entryAt
  rw [hch]
  simp only [he]

theorem Holds_set_other {l : List Chunk} {c : Nat} {ch x : Chunk} {i : Fin 64} {h : Handle}
    (hch : l[c]? = some ch) (hx : ∀ j, j ≠ i → x.m_content j = ch.m_content j)
    (hne : h ≠ ⟨c, i⟩) (ho : (SmallObjectPool.mk l).Holds h) :
    (SmallObjectPool.mk (l.set c x)).Holds h := by
  have hlt : c < l.length := by
    rcases List.getElem?_eq_some.1 hch with ⟨hl, _⟩
    exact hl
  obtain ⟨ch0, h0, h1⟩ := Holds_getElem ho
  by_cases hc : h.chunk = c
  · have hs : h.slot ≠ i := by
      intro hs
      apply hne
      cases h
      simp at hc hs
      simp [hc, hs]
    have hsame : ch0 = ch := by
      simp only [hc] at h0
      exact Option.some.inj (h0.symm.trans hch)
    subst hsame
    apply @Holds_of_getElem _ _ (x)
    · simp only [hc]
      exact List.getElem?_set_self hlt
    · rw [hx _ hs]; exact h1
  · apply @Holds_of_getElem _ _ (ch0)
    · simp only
      rw [List.getElem?_set_ne (Ne.symm hc)]
      exact h0
    · exact h1

theorem Holds_append {l : List Chunk} (x : Chunk) {h : Handle}
    (ho : (SmallObjectPool.mk l).Holds h) : (SmallObjectPool.mk (l ++ [x])).Holds h := by
  obtain ⟨ch0, h0, h1⟩ := Holds_getElem ho
  have hlt : h.chunk < l.length := by
    rcases List.getElem?_eq_some.1 h0 with ⟨hl, _⟩
    exact hl
  apply @Holds_of_getElem _ _ (ch0)
  · simp only
    rw [List.getElem?_append_left hlt]
    exact h0
  · exact h1

theorem PoolSys.LifeInv.at_init : PoolSys.init.LifeInv := by
  refine ⟨PoolSys.Inv.init, ?_, ?_⟩
  · intro h hh
    simp [PoolSys.init] at hh
  · intro ch hch
    simp [PoolSys.init, SmallObjectPool.empty] at hch

theorem PoolSys.LifeInv.bit_of_live {s : PoolSys} (hs : s.LifeInv) {h : Handle}
    (hm : h ∈ s.live) {ch : Chunk} (hch : s.pool.s_chunks[h.chunk]? = some ch) :
    ch.m_is_used h.slot = true := by
  have := (hs.inv.bits h.chunk h.slot).2 hm
  rw [← used_of_getElem? hch h.slot]
  exact this

theorem PoolSys.LifeInv.step_events {s s1 : PoolSys} (hs : s.LifeInv) (op : PoolOp)
    (hstep : s.step op = some s1) :
    ∃ tr, s.stepEvents op = some tr ∧ s1.LifeInv ∧
      (∀ eq ∈ tr, eq.2.FreeSlotsReleased) ∧ lastState tr s.pool = s1.pool := by
  have hinv1 : s1.Inv := hs.inv.step op hstep
  cases op with
  | allocate =>
    rcases Allocate_cases s.pool with ⟨c, ch, i, hc, hch, hi, hA⟩ | ⟨hfull, hA⟩
    · have hlt : c < s.pool.s_chunks.length := by
        rcases List.getElem?_eq_some.1 hch with ⟨hl, _⟩
        exact hl
      have hs1 : s1 = ⟨⟨s.pool.s_chunks.set c (ch.claim c i)⟩, ⟨c, i⟩ :: s.live⟩ := by
        simp [PoolSys.step, hA] at hstep
        exact hstep.symm
      have hcl : ch.Clean := hs.clean ch (List.getElem?_mem hch)
      have hunset : s.pool.used c i = false := by
        show (SmallObjectPool.mk s.pool.s_chunks).used c i = false
        rw [used_of_getElem? hch]; exact hi.1
      have hnot : (⟨c, i⟩ : Handle) ∉ s.live := hs.inv.not_live_of_unset hunset
      refine ⟨_, by simp [PoolSys.stepEvents, Allocate_steps_open hc hch hi]; rfl, ?_, ?_, ?_⟩
      · subst hs1
        refine ⟨hinv1, ?_, clean_set hs.clean c (Chunk.clean_claim hcl c i)⟩
        intro h hm
        rcases List.mem_cons.1 hm with h1 | h1
        · subst h1
          exact @Holds_of_getElem _ _ (ch.claim c i) (List.getElem?_set_self hlt)
            (by simp [Chunk.claim])
        · apply Holds_set_other hch (i := i) _ _ (hs.holds h h1)
          · intro j hj
            simp [Chunk.claim, Function.update_noteq hj]
          · intro he
            subst he
            exact hnot h1
      · intro eq heq
        simp only [List.mem_cons, List.mem_singleton, List.not_mem_nil, or_false] at heq
        rcases heq with h1 | h1 <;> subst h1
        · exact released_of_clean (clean_set hs.clean c (Chunk.clean_mark hcl i))
        · exact released_of_clean (clean_set hs.clean c (Chunk.clean_claim hcl c i))
      · subst hs1
        rfl
    · have hs1 : s1 = ⟨⟨s.pool.s_chunks ++ [Chunk.fresh.claim s.pool.s_chunks.length 0]⟩,
          ⟨s.pool.s_chunks.length, 0⟩ :: s.live⟩ := by
        simp [PoolSys.step, hA] at hstep
        exact hstep.symm
      refine ⟨_, by simp [PoolSys.stepEvents, Allocate_steps_full hfull]; rfl, ?_, ?_, ?_⟩
      · subst hs1
        refine ⟨hinv1, ?_, clean_append hs.clean (Chunk.clean_claim Chunk.clean_fresh _ 0)⟩
        intro h hm
        rcases List.mem_cons.1 hm with h1 | h1
        · subst h1
          exact @Holds_of_getElem _ _ (Chunk.fresh.claim s.pool.s_chunks.length 0)
            (List.getElem?_concat_length _ _) (by simp [Chunk.claim])
        · exact Holds_append _ (hs.holds h h1)
      · intro eq heq
        simp only [List.mem_cons, List.mem_singleton, List.not_mem_nil, or_false] at heq
        rcases heq with h1 | h1 | h1 <;> subst h1
        · exact released_of_clean (clean_append hs.clean Chunk.clean_fresh)
        · exact released_of_clean (clean_append hs.clean (Chunk.clean_mark Chunk.clean_fresh 0))
        · exact released_of_clean
            (clean_append hs.clean (Chunk.clean_claim Chunk.clean_fresh _ 0))
      · subst hs1
        rfl
  | release h =>
    by_cases hm : h ∈ s.live
    · obtain ⟨ch, hch, he⟩ := Holds_getElem (hs.holds h hm)
      have hown : (ch.m_content h.slot).m_owner = some h.chunk := by rw [he]
      have hidx : (ch.m_content h.slot).m_index = (h.slot.val : Int) := by rw [he]
      have hD := deleter_owned hch hown hidx
      have hbit := hs.bit_of_live hm hch
      have hcl : ch.Clean := hs.clean ch (List.getElem?_mem hch)
      have hs1 : s1 = ⟨⟨s.pool.s_chunks.set h.chunk (ch.release h.slot)⟩, s.live.erase h⟩ := by
        simp [PoolSys.step, hm, hD] at hstep
        exact hstep.symm
      refine ⟨_, by simp [PoolSys.stepEvents, hm, deleter_steps_owned hch hown hidx]; rfl,
        ?_, ?_, ?_⟩
      · subst hs1
        refine ⟨hinv1, ?_, clean_set hs.clean _ (Chunk.clean_release hcl _)⟩
        intro g hg
        have hh := (hs.inv.nodup.mem_erase_iff).1 hg
        apply Holds_set_other hch (i := h.slot) _ hh.1 (hs.holds g hh.2)
        intro j hj
        simp [Chunk.release, Function.update_noteq hj]
      · intro eq heq
        simp only [List.mem_cons, List.mem_singleton, List.not_mem_nil, or_false] at heq
        rcases heq with h1 | h1 | h1 <;> subst h1
        · exact released_of_clean (clean_set hs.clean _ (Chunk.clean_destroyed hcl hbit))
        · exact released_of_clean (clean_set hs.clean _ (Chunk.clean_unlinked hcl hbit))
        · exact released_of_clean (clean_set hs.clean _ (Chunk.clean_release hcl _))
      · subst hs1
        rfl
    · simp [PoolSys.step, hm] at hstep

theorem PoolSys.LifeInv.trace {ops : List PoolOp} :
    ∀ {s s1 : PoolSys}, s.LifeInv → PoolSys.run s ops = some s1 →
      ∃ tr, PoolSys.trace s ops = some tr ∧ s1.LifeInv ∧
        (∀ eq ∈ tr, eq.2.FreeSlotsReleased) ∧ lastState tr s.pool = s1.pool := by
  induction ops with
  | nil =>
    intro s s1 hs h
    simp only [PoolSys.run, Option.some.injEq] at h
    subst h
    exact ⟨[], rfl, hs, by simp, rfl⟩
  | cons op ops ih =>
    intro s s1 hs h
    unfold PoolSys.run at h
    cases hstep : s.step op with
    | none => rw [hstep] at h; cases h
    | some s2 =>
      rw [hstep] at h
      obtain ⟨tr1, he1, hs2, hall1, hlast1⟩ := hs.step_events op hstep
      obtain ⟨tr2, he2, hs1, hall2, hlast2⟩ := ih hs2 h
      refine ⟨tr1 ++ tr2, ?_, hs1, ?_, ?_⟩
      · unfold PoolSys.trace
        rw [he1, hstep]
        simp only [he2]
      · intro eq heq
        rcases List.mem_append.1 heq with h1 | h1
        · exact hall1 eq h1
        · exact hall2 eq h1
      · rw [lastState_append, hlast1, hlast2]

/-- Claim C14: release ordering.  Along every run from the empty pool, in every
pool state passed through (the states between the statements of `Allocate` and
of the deleter included) no slot whose occupancy bit is unset holds an object
allocated through a handle and not yet destructed.  In the reached state, the
release action on a live handle acts on a live object and performs, in this
order, exactly: the destructor call, the clearing of the bookkeeping, the reset
of the slot's bit; the bit is still set after the first two and unset after the
third.  The release action on the null pointer performs nothing. -/
theorem release_ordering (ops : List PoolOp) (s : PoolSys)
    (hrun : PoolSys.run PoolSys.init ops = some s) :
    (∃ tr, PoolSys.trace PoolSys.init ops = some tr ∧
      (∀ eq ∈ tr, eq.2.FreeSlotsReleased) ∧ lastState tr SmallObjectPool.empty = s.pool) ∧
    s.pool.FreeSlotsReleased ∧
    (∀ h ∈ s.live, s.pool.Holds h ∧ ∃ pa pb pc,
      deleter.steps s.pool (some h)
        = .ok [(.destruct h, pa), (.unlink h, pb), (.resetBit h.chunk h.slot, pc)] ∧
      deleter s.pool (some h) = .ok pc ∧
      pa.entryAt h = some ⟨false, some h.chunk, (h.slot.val : Int)⟩ ∧
      pa.used h.chunk h.slot = true ∧ pb.used h.chunk h.slot = true ∧
      pc.used h.chunk h.slot = false) ∧
    deleter.steps s.pool none = .ok [] ∧ deleter s.pool none = .ok s.pool := by
  obtain ⟨tr, htr, hs, hall, hlast⟩ := PoolSys.LifeInv.trace PoolSys.LifeInv.at_init hrun
  refine ⟨⟨tr, htr, hall, hlast⟩, released_of_clean hs.clean, ?_, rfl, rfl⟩
  intro h hm
  obtain ⟨ch, hch, he⟩ := Holds_getElem (hs.holds h hm)
  have hown : (ch.m_content h.slot).m_owner = some h.chunk := by rw [he]
  have hidx : (ch.m_content h.slot).m_index = (h.slot.val : Int) := by rw [he]
  have hbit := hs.bit_of_live hm hch
  have hlt : h.chunk < s.pool.s_chunks.length := by
    rcases List.getElem?_eq_some.1 hch with ⟨hl, _⟩
    exact hl
  refine ⟨hs.holds h hm, _, _, _, deleter_steps_owned hch hown hidx,
    deleter_owned hch hown hidx, ?_, ?_, ?_, ?_⟩
  · simp [SmallObjectPool.entryAt, List.getElem?_set_self hlt, Chunk.destroyed, he]
  · rw [used_set _ hlt]; simpa [Chunk.destroyed] using hbit
  · rw [used_set _ hlt]; simpa [Chunk.unlinked] using hbit
  · rw [used_set _ hlt]; simp [Chunk.release]

/-- Witness for C14: the run allocate, allocate from the empty pool reaches a
state with two live handles, and the ordering statement holds there. -/
theorem release_ordering_witness :
    ∃ s, PoolSys.run PoolSys.init [.allocate, .allocate] = some s ∧
      s.pool.FreeSlotsReleased ∧
      (∀ h ∈ s.live, s.pool.Holds h ∧ ∃ pa pb pc,
        deleter.steps s.pool (some h)
          = .ok [(.destruct h, pa), (.unlink h, pb), (.resetBit h.chunk h.slot, pc)] ∧
        deleter s.pool (some h) = .ok pc ∧
        pa.entryAt h = some ⟨false, some h.chunk, (h.slot.val : Int)⟩ ∧
        pa.used h.chunk h.slot = true ∧ pb.used h.chunk h.slot = true ∧
        pc.used h.chunk h.slot = false) := by
  have hsome : (PoolSys.run PoolSys.init [.allocate, .allocate]).isSome = true := by decide
  obtain ⟨s, hs⟩ := Option.isSome_iff_exists.1 hsome
  have h := release_ordering _ s hs
  exact ⟨s, hs, h.2.1, h.2.2.1⟩

/-- Claim C16 (code defect): every slot of a freshly created chunk already
holds a constructed object (`std::make_shared<Chunk>()` default-constructs the
64 entries of `m_content`), and the first `Allocate` on the empty pool constructs
its object in slot `(0,0)` while the slot's flag is still set: the flag reads
`true` after the chunk creation, after the bit is set, and the construction
follows. -/
theorem allocate_constructs_over_constructed :
    (∀ i, (Chunk.fresh.m_content i).constructed = true) ∧
    (Allocate.steps SmallObjectPool.empty).toOption.map
        (fun r => (r.1, r.2.map (fun eq => (eq.1, (eq.2.entryAt ⟨0, 0⟩).map Entry.constructed))))
      = some (⟨0, 0⟩,
          [(.create 0, some true), (.setBit 0 0, some true), (.construct ⟨0, 0⟩, some true)]) := by
  decide

/-! ## Lemmas: `Data::write` when every copy fits -/

theorem Segment.length_read (mem : Memory) (seg : Segment) : (seg.read mem).length = seg.size := by
  simp [Segment.read]

theorem Segment.read_congr {m1 m2 : Memory} {seg : Segment}
    (h : ∀ k, k < seg.size → m1 (seg.ptr + k) = m2 (seg.ptr + k)) :
    seg.read m1 = seg.read m2 := by
  unfold Segment.read
  apply List.map_congr_left
  intro k hk
  exact h k (List.mem_range.1 hk)

theorem Segment.read_memcpy (mem : Memory) (seg : Segment) (src : List Char) (o n : Nat)
    (hb : o + n ≤ seg.size) (hn : n ≤ src.length) :
    seg.read (memcpy mem (seg.ptr + o) src n)
      = (seg.read mem).take o ++ src.take n ++ (seg.read mem).drop (o + n) := by
  apply List.ext_getElem?
  intro k
  by_cases hk : k < seg.size
  · by_cases h1 : k < o
    · rw [List.append_assoc, List.getElem?_append_left (by simp [Segment.read]; omega)]
      simp [Segment.read, memcpy, List.getElem?_take, hk, h1]
    · by_cases h2 : k < o + n
      · rw [List.getElem?_append_left (by simp [Segment.read]; omega),
          List.getElem?_append_right (by simp [Segment.read]; omega)]
        have hlen : (List.take o (seg.read mem)).length = o := by
          simp [Segment.read]; omega
        rw [hlen]
        have hko : k - o < n := by omega
        have hsrc : k - o < src.length := by omega
        simp [Segment.read, memcpy, List.getElem?_take, hk, hko, List.getD_eq_getElem?_getD]
        have e1 : o ≤ k ∧ seg.ptr + k < seg.ptr + o + n := by omega
        have e2 : seg.ptr + k - (seg.ptr + o) = k - o := by omega
        rw [if_pos e1, e2, List.getElem?_eq_getElem hsrc]
        rfl
      · rw [List.getElem?_append_right (by simp [Segment.read]; omega)]
        have hlen : (List.take o (seg.read mem) ++ List.take n src).length = o + n := by
          simp [Segment.read]; omega
        rw [hlen]
        have e1 : ¬ (seg.ptr + o ≤ seg.ptr + k ∧ seg.ptr + k < seg.ptr + o + n) := by omega
        have e3 : o + n + (k - (o + n)) = k := by omega
        simp [Segment.read, memcpy, hk, e3]
        intro _ h4
        omega
  · have l1 : (seg.read (memcpy mem (seg.ptr + o) src n)).length ≤ k := by
      simp [Segment.read]; omega
    have l2 : ((seg.read mem).take o ++ src.take n ++ (seg.read mem).drop (o + n)).length ≤ k := by
      simp [Segment.read]; omega
    rw [List.getElem?_eq_none l1, List.getElem?_eq_none l2]

theorem spliced_skip (a b src : List Char) (len offset : Nat) (h : a.length ≤ offset) :
    spliced (a ++ b) src len offset = a ++ spliced b src len (offset - a.length) := by
  unfold spliced
  have h1 : (a ++ b).take offset = a ++ b.take (offset - a.length) := by
    rw [List.take_append_eq_append_take, List.take_of_length_le h]
  have h2 : (a ++ b).length - offset = b.length - (offset - a.length) := by
    simp only [List.length_append]; omega
  rw [h1, h2, List.drop_append_eq_append_drop]
  have h3 : List.drop (offset + min len (b.length - (offset - a.length))) a = [] := by
    apply List.drop_of_length_le; omega
  have h4 : offset + min len (b.length - (offset - a.length)) - a.length
      = offset - a.length + min len (b.length - (offset - a.length)) := by omega
  rw [h3, h4]
  simp

theorem spliced_within (a b src : List Char) (len offset : Nat) (h : offset + len ≤ a.length) :
    spliced (a ++ b) src len offset
      = (a.take offset ++ src.take len ++ a.drop (offset + len)) ++ b := by
  unfold spliced
  have h2 : min len ((a ++ b).length - offset) = len := by
    simp only [List.length_append]; omega
  rw [h2, List.take_append_eq_append_take, List.drop_append_eq_append_drop]
  have h3 : offset - a.length = 0 := by omega
  have h4 : offset + len - a.length = 0 := by omega
  rw [h3, h4]
  simp

theorem spliced_span (a b src : List Char) (len : Nat) (h : a.length ≤ len) :
    spliced (a ++ b) src len 0
      = src.take a.length ++ spliced b (src.drop a.length) (len - a.length) 0 := by
  unfold spliced
  simp only [List.take_zero, List.nil_append, Nat.sub_zero, Nat.zero_add, List.length_append]
  have hm : min len (a.length + b.length) = a.length + min (len - a.length) b.length := by omega
  rw [hm, List.take_add, List.drop_append_eq_append_drop]
  have h3 : List.drop (a.length + min (len - a.length) b.length) a = [] := by
    apply List.drop_of_length_le; omega
  have h4 : a.length + min (len - a.length) b.length - a.length = min (len - a.length) b.length := by
    omega
  rw [h3, h4]
  simp

theorem Fits.cons_skip {seg : Segment} {rest : List Segment} {offset size : Nat}
    (h : seg.size ≤ offset) (hf : Fits (seg :: rest) offset size) :
    Fits rest (offset - seg.size) size := by
  unfold Fits locate at hf
  rw [if_pos h] at hf
  exact hf

theorem Fits.cons_here {seg : Segment} {rest : List Segment} {offset size : Nat}
    (h : ¬ seg.size ≤ offset) (hf : Fits (seg :: rest) offset size) :
    offset = 0 ∨ size ≤ seg.size - offset := by
  unfold Fits locate at hf
  rw [if_neg h] at hf
  exact hf

theorem Fits.at_zero (size : Nat) : ∀ segs : List Segment, Fits segs 0 size := by
  intro segs
  induction segs with
  | nil => simp [Fits, locate]
  | cons seg rest ih =>
    unfold Fits locate
    by_cases h : seg.size ≤ 0
    · rw [if_pos h]
      simpa using ih
    · rw [if_neg h]
      exact Or.inl rfl

theorem Copy.run_outside (data : List Char) (mem : Memory) {c : Copy} (hc : c.InBounds)
    {a : Nat} (ha : ¬ (c.seg.ptr ≤ a ∧ a < c.seg.ptr + c.seg.size)) :
    Copy.run data mem c a = mem a := by
  unfold Copy.InBounds at hc
  unfold Copy.run memcpy
  rw [if_neg]
  omega

theorem foldl_run_outside (data : List Char) {a : Nat} :
    ∀ (cs : List Copy) (mem : Memory),
      (∀ c ∈ cs, c.InBounds ∧ ¬ (c.seg.ptr ≤ a ∧ a < c.seg.ptr + c.seg.size)) →
      cs.foldl (Copy.run data) mem a = mem a := by
  intro cs
  induction cs with
  | nil => intro mem _; rfl
  | cons c cs ih =>
    intro mem h
    rw [List.foldl_cons, ih _ (fun d hd => h d (List.mem_cons_of_mem _ hd))]
    have hc := h c (List.mem_cons_self _ _)
    exact Copy.run_outside data mem hc.1 hc.2

theorem Segment.read_foldl_disjoint (data : List Char) (t : Segment) (cs : List Copy)
    (mem : Memory)
    (h : ∀ c ∈ cs, c.InBounds ∧
      (t.ptr + t.size ≤ c.seg.ptr ∨ c.seg.ptr + c.seg.size ≤ t.ptr)) :
    t.read (cs.foldl (Copy.run data) mem) = t.read mem := by
  apply Segment.read_congr
  intro k hk
  apply foldl_run_outside
  intro c hc
  have := h c hc
  refine ⟨this.1, ?_⟩
  omega

theorem Data.write.loop_seg_mem :
    ∀ (segs : List Segment) (offset off size : Nat),
      ∀ c ∈ Data.write.loop segs offset off size, c.seg ∈ segs := by
  intro segs
  induction segs with
  | nil => intro offset off size c hc; simp [Data.write.loop] at hc
  | cons seg rest ih =>
    intro offset off size c hc
    unfold Data.write.loop at hc
    by_cases h : offset ≥ seg.size
    · rw [if_pos h] at hc
      exact List.mem_cons_of_mem _ (ih _ _ _ c hc)
    · rw [if_neg h] at hc
      simp only at hc
      split at hc
      · rw [List.mem_singleton.1 hc]
        exact List.mem_cons_self _ _
      · rcases List.mem_cons.1 hc with h1 | h1
        · rw [h1]
          exact List.mem_cons_self _ _
        · exact List.mem_cons_of_mem _ (ih _ _ _ c h1)

theorem Data.write.loop_inBounds :
    ∀ (segs : List Segment) (offset off size : Nat), Fits segs offset size →
      ∀ c ∈ Data.write.loop segs offset off size, c.InBounds := by
  intro segs
  induction segs with
  | nil => intro offset off size _ c hc; simp [Data.write.loop] at hc
  | cons seg rest ih =>
    intro offset off size hf c hc
    unfold Data.write.loop at hc
    by_cases h : offset ≥ seg.size
    · rw [if_pos h] at hc
      exact ih _ _ _ (hf.cons_skip h) c hc
    · rw [if_neg h] at hc
      have hfit := hf.cons_here h
      have hb : (Copy.mk seg offset off (min size seg.size)).InBounds := by
        unfold Copy.InBounds
        simp only
        omega
      simp only at hc
      split at hc
      · rw [List.mem_singleton.1 hc]
        exact hb
      · rcases List.mem_cons.1 hc with h1 | h1
        · rw [h1]
          exact hb
        · exact ih _ _ _ (Fits.at_zero _ rest) c h1

theorem DisjointSegments.head {seg : Segment} {rest : List Segment}
    (h : DisjointSegments (seg :: rest)) :
    ∀ t ∈ rest, seg.ptr + seg.size ≤ t.ptr ∨ t.ptr + t.size ≤ seg.ptr :=
  (List.pairwise_cons.1 h).1

theorem DisjointSegments.tail {seg : Segment} {rest : List Segment}
    (h : DisjointSegments (seg :: rest)) : DisjointSegments rest :=
  (List.pairwise_cons.1 h).2

theorem Data.write.loop_correct (data : List Char) :
    ∀ (segs : List Segment) (offset off size : Nat) (mem : Memory),
      DisjointSegments segs → off + size ≤ data.length → Fits segs offset size →
      segs.flatMap (Segment.read ((Data.write.loop segs offset off size).foldl (Copy.run data) mem))
        = spliced (segs.flatMap (Segment.read mem)) (data.drop off) size offset := by
  intro segs
  induction segs with
  | nil =>
    intro offset off size mem _ _ _
    simp [Data.write.loop, spliced]
  | cons seg rest ih =>
    intro offset off size mem hdis hdata hf
    have hhead := hdis.head
    have hlen : (seg.read mem).length = seg.size := Segment.length_read mem seg
    by_cases h : offset ≥ seg.size
    · -- the segment is skipped
      have hloop : Data.write.loop (seg :: rest) offset off size
          = Data.write.loop rest (offset - seg.size) off size := by
        rw [Data.write.loop, if_pos h]
      have hseg : seg.read ((Data.write.loop rest (offset - seg.size) off size).foldl
          (Copy.run data) mem) = seg.read mem := by
        apply Segment.read_foldl_disjoint
        intro c hc
        exact ⟨Data.write.loop_inBounds _ _ _ _ (hf.cons_skip h) c hc,
          hhead _ (Data.write.loop_seg_mem _ _ _ _ c hc)⟩
      rw [hloop, List.flatMap_cons, List.flatMap_cons, hseg,
        ih _ _ _ mem hdis.tail hdata (hf.cons_skip h),
        spliced_skip _ _ _ _ _ (by rw [hlen]; exact h), hlen]
    · -- the segment is copied into
      have hfit := hf.cons_here h
      by_cases hlast : size - min size seg.size = 0
      · -- the copy ends the write
        have hn : min size seg.size = size := by omega
        have hloop : Data.write.loop (seg :: rest) offset off size
            = [⟨seg, offset, off, size⟩] := by
          rw [Data.write.loop, if_neg h]
          simp only [hn, Nat.sub_self, if_true]
        have hb : (Copy.mk seg offset off size).InBounds := by
          unfold Copy.InBounds
          simp only
          omega
        have hrest : rest.flatMap (Segment.read (Copy.run data mem ⟨seg, offset, off, size⟩))
            = rest.flatMap (Segment.read mem) := by
          apply List.flatMap_congr
          intro t ht
          apply Segment.read_congr
          intro k hk
          apply Copy.run_outside data mem hb
          have := hhead t ht
          simp only
          omega
        have hseg : seg.read (Copy.run data mem ⟨seg, offset, off, size⟩)
            = (seg.read mem).take offset ++ (data.drop off).take size
              ++ (seg.read mem).drop (offset + size) := by
          unfold Copy.run
          exact Segment.read_memcpy mem seg (data.drop off) offset size hb
            (by rw [List.length_drop]; omega)
        rw [hloop, List.foldl_cons, List.foldl_nil, List.flatMap_cons, List.flatMap_cons,
          hrest, hseg, spliced_within _ _ _ _ _ (by rw [hlen]; exact hb)]
      · -- the copy fills the segment from its start and the write goes on
        have hoff : offset = 0 := by omega
        subst hoff
        have hn : min size seg.size = seg.size := by omega
        have hloop : Data.write.loop (seg :: rest) 0 off size
            = ⟨seg, 0, off, seg.size⟩ ::
                Data.write.loop rest 0 (off + seg.size) (size - seg.size) := by
          rw [Data.write.loop, if_neg h]
          simp only [hn]
          rw [if_neg (by omega)]
        have hb : (Copy.mk seg 0 off seg.size).InBounds := by
          unfold Copy.InBounds
          simp
        have hrest : rest.flatMap (Segment.read (Copy.run data mem ⟨seg, 0, off, seg.size⟩))
            = rest.flatMap (Segment.read mem) := by
          apply List.flatMap_congr
          intro t ht
          apply Segment.read_congr
          intro k hk
          apply Copy.run_outside data mem hb
          have := hhead t ht
          simp only
          omega
        have hseg1 : seg.read (Copy.run data mem ⟨seg, 0, off, seg.size⟩)
            = (data.drop off).take seg.size := by
          unfold Copy.run
          rw [Segment.read_memcpy mem seg (data.drop off) 0 seg.size hb
            (by rw [List.length_drop]; omega)]
          simp only [List.take_zero, List.nil_append, Nat.zero_add]
          have hd : List.drop seg.size (seg.read mem) = [] :=
            List.drop_of_length_le (by rw [hlen])
          rw [hd, List.append_nil]
        have hseg : seg.read ((Data.write.loop rest 0 (off + seg.size) (size - seg.size)).foldl
            (Copy.run data) (Copy.run data mem ⟨seg, 0, off, seg.size⟩))
            = (data.drop off).take seg.size := by
          rw [← hseg1]
          apply Segment.read_foldl_disjoint
          intro c hc
          exact ⟨Data.write.loop_inBounds _ _ _ _ (Fits.at_zero _ rest) c hc,
            hhead _ (Data.write.loop_seg_mem _ _ _ _ c hc)⟩
        rw [hloop, List.foldl_cons, List.flatMap_cons, List.flatMap_cons, hseg,
          ih 0 (off + seg.size) (size - seg.size) _ hdis.tail (by omega) (Fits.at_zero _ rest),
          hrest, spliced_span _ _ _ _ (by rw [hlen]; omega), hlen, List.drop_drop]

theorem locate_of_lt : ∀ (segs : List Segment) (offset : Nat),
    offset < (segs.map Segment.size).sum →
    ∃ s o, locate segs offset = some (s, o) ∧ o < s := by
  intro segs
  induction segs with
  | nil => intro offset h; simp at h
  | cons seg rest ih =>
    intro offset h
    simp only [List.map_cons, List.sum_cons] at h
    unfold locate
    by_cases hs : offset ≥ seg.size
    · rw [if_pos hs]
      exact ih _ (by omega)
    · rw [if_neg hs]
      exact ⟨seg.size, offset, rfl, by omega⟩

theorem length_contents (mem : Memory) : ∀ segs : List Segment,
    (segs.flatMap (Segment.read mem)).length = (segs.map Segment.size).sum := by
  intro segs
  induction segs with
  | nil => rfl
  | cons seg rest ih =>
    simp only [List.flatMap_cons, List.length_append, List.map_cons, List.sum_cons, ih,
      Segment.length_read]

/-! ## Theorems: Data, when every copy fits -/

/-- Claim C15: `Data::write` is correct whenever no copy starts mid-segment with
more data than fits.  For every non-null buffer whose size is the sum of its
segment sizes and whose segments are separate memory regions, every `data` with
at least `length` bytes and every `offset < size()`: the offset falls at an
in-segment position `o` of a segment of size `s`, and if `o = 0` or
`length <= s - o` then `write` returns normally, every `memcpy` it issues stays
inside its segment, no byte outside the segments changes, and the logical
contents afterwards are the old contents with the bytes at
`[offset, offset + min(length, size() - offset))` replaced by the head of
`data`. -/
theorem write_correct_when_fits (impl : DataImpl) (mem : Memory) (data : List Char)
    (size offset : Nat) (hwf : impl.WellFormed) (hdis : DisjointSegments impl.m_segments)
    (hdata : size ≤ data.length) (hoff : offset < (Data.mk (some impl)).size) :
    ∃ s o, locate impl.m_segments offset = some (s, o) ∧ o < s ∧
      ((o = 0 ∨ size ≤ s - o) →
        ∃ mem1, Data.write ⟨some impl⟩ mem data size offset = .ok mem1 ∧
          (∀ c ∈ Data.write.loop impl.m_segments offset 0 size,
            c.seg ∈ impl.m_segments ∧ c.InBounds) ∧
          (∀ a, ¬ InSegments impl.m_segments a → mem1 a = mem a) ∧
          (Data.contents ⟨some impl⟩ mem).length = (Data.mk (some impl)).size ∧
          Data.contents ⟨some impl⟩ mem1
            = spliced (Data.contents ⟨some impl⟩ mem) data size offset) := by
  have hsum : impl.m_size = (impl.m_segments.map Segment.size).sum := hwf
  have hoff1 : offset < (impl.m_segments.map Segment.size).sum := by
    simp only [Data.size] at hoff
    omega
  obtain ⟨s, o, hloc, hlt⟩ := locate_of_lt impl.m_segments offset hoff1
  refine ⟨s, o, hloc, hlt, ?_⟩
  intro hcond
  have hf : Fits impl.m_segments offset size := by
    unfold Fits
    rw [hloc]
    exact hcond
  have hin : ∀ c ∈ Data.write.loop impl.m_segments offset 0 size,
      c.seg ∈ impl.m_segments ∧ c.InBounds := fun c hc =>
    ⟨Data.write.loop_seg_mem _ _ _ _ c hc, Data.write.loop_inBounds _ _ _ _ hf c hc⟩
  refine ⟨(Data.write.loop impl.m_segments offset 0 size).foldl (Copy.run data) mem, ?_, hin,
    ?_, ?_, ?_⟩
  · simp [Data.write, Data.segments]
  · intro a ha
    apply foldl_run_outside
    intro c hc
    refine ⟨(hin c hc).2, ?_⟩
    intro hr
    exact ha ⟨c.seg, (hin c hc).1, hr⟩
  · simp only [Data.contents, Data.segments, Data.size]
    rw [length_contents, hsum]
  · have := Data.write.loop_correct data impl.m_segments offset 0 size mem hdis
      (by omega) hf
    simpa [Data.contents, Data.segments] using this

/-- Witness for C15: on the two-segment scenario buffer, a two-byte write at
offset 2 (position 2 of a segment of size 4, `2 <= 4 - 2`) replaces exactly the
bytes 2 and 3, and an eight-byte write at offset 4 (position 0 of the second
segment) replaces the bytes 4 to 7 and drops the rest. -/
theorem write_correct_when_fits_witness :
    (∃ mem1, Data.write scenarioData memX scenarioSource 2 2 = .ok mem1 ∧
      Data.contents scenarioData mem1 = ['x', 'x', 'A', 'B', 'x', 'x', 'x', 'x']) ∧
    (∃ mem1, Data.write scenarioData memX scenarioSource 8 4 = .ok mem1 ∧
      Data.contents scenarioData mem1 = ['x', 'x', 'x', 'x', 'A', 'B', 'C', 'D']) := by
  constructor
  · obtain ⟨s, o, hloc, _, himp⟩ :=
      write_correct_when_fits (DataImpl.mkSegments [⟨100, 4⟩, ⟨200, 4⟩] nullptr none) memX
        scenarioSource 2 2 (by decide) (by decide) (by decide) (by decide)
    have h42 : locate (DataImpl.mkSegments [⟨100, 4⟩, ⟨200, 4⟩] nullptr none).m_segments 2
        = some (4, 2) := by decide
    rw [h42] at hloc
    have hs : s = 4 := by
      have := congrArg (fun r => r.map Prod.fst) hloc
      simpa using this.symm
    have ho : o = 2 := by
      have := congrArg (fun r => r.map Prod.snd) hloc
      simpa using this.symm
    obtain ⟨mem1, hw, _, _, _, hc⟩ := himp (Or.inr (by rw [hs, ho]))
    refine ⟨mem1, hw, ?_⟩
    have hc1 : Data.contents scenarioData mem1
        = spliced (Data.contents scenarioData memX) scenarioSource 2 2 := hc
    rw [hc1]
    decide
  · obtain ⟨s, o, hloc, _, himp⟩ :=
      write_correct_when_fits (DataImpl.mkSegments [⟨100, 4⟩, ⟨200, 4⟩] nullptr none) memX
        scenarioSource 8 4 (by decide) (by decide) (by decide) (by decide)
    have h40 : locate (DataImpl.mkSegments [⟨100, 4⟩, ⟨200, 4⟩] nullptr none).m_segments 4
        = some (4, 0) := by decide
    rw [h40] at hloc
    have ho : o = 0 := by
      have := congrArg (fun r => r.map Prod.snd) hloc
      simpa using this.symm
    obtain ⟨mem1, hw, _, _, _, hc⟩ := himp (Or.inl ho)
    refine ⟨mem1, hw, ?_⟩
    have hc1 : Data.contents scenarioData mem1
        = spliced (Data.contents scenarioData memX) scenarioSource 8 4 := hc
    rw [hc1]
    decide

end mofka
